import Mathlib

/-! Shallow embedding of the resilient table-extraction and normalization
pipeline of the Grain-Dashboard-Auto repository (src/resilient_fetch.py,
src/resilient_patch.py, src/patch_duplicate_columns.py), together with proofs
about the properties claimed in the specification.

Modelling conventions:
* a pandas DataFrame is a list of named columns, each a list of cells
  (`Frame`); the integer row index is not modelled, so a frame with zero
  columns has zero observable rows;
* a cell is a string, an exact rational number (pandas float64 prices are
  modelled as exact rationals), or null (NaN/None);
* Python functions that can raise are modelled as `Except String`-valued;
* network and HTML parsing (requests, pandas.read_html, BeautifulSoup) are
  external libraries and are modelled as oracle parameters where needed. -/

namespace Grain

/-! ## String helpers (Python str methods and fixed-pattern regex searches)

All string manipulation is done on `String.data` character lists, which the
kernel can evaluate. -/

/-- Python `str.lower` restricted to ASCII case mapping. -/
def lowerS (s : String) : String := String.mk (s.data.map Char.toLower)

/-- Whitespace characters recognised by Python `str.strip` / regex on the
ASCII labels occurring in this pipeline. -/
def isWS (c : Char) : Bool := c == ' ' || c == '\t' || c == '\n' || c == '\r'

/-- Python `str.strip()` on a character list. -/
def trimData (cs : List Char) : List Char :=
  ((cs.dropWhile isWS).reverse.dropWhile isWS).reverse

/-- Python `str.strip()`. -/
def trimS (s : String) : String := String.mk (trimData s.data)

/-- Does `small` occur as a contiguous run inside `big`?  This is
`re.search` for a fixed (literal) pattern. -/
def containsList (big small : List Char) : Bool :=
  big.tails.any (fun t => small.isPrefixOf t)

/-- Substring test on strings: `re.search(pat, s)` for a literal `pat`. -/
def containsS (s pat : String) : Bool := containsList s.data pat.data

/-- Case-insensitive substring test: `re.search(pat, s, re.I)` for a
lowercase literal `pat`. -/
def containsCI (s pat : String) : Bool := containsS (lowerS s) pat

/-- One pass of `re.sub(r"\s+", " ", c)`: every maximal run of whitespace
is replaced by a single space (state flag = currently inside a run). -/
def squeezeWSAux : List Char → Bool → List Char
  | [], _ => []
  | c :: cs, inRun =>
    if isWS c then
      if inRun then squeezeWSAux cs true else ' ' :: squeezeWSAux cs true
    else c :: squeezeWSAux cs false

/-- `re.sub(r"\s+", " ", c).strip()` — the column-label cleanup of
resilient_patch.normalize_bid_table line 66. -/
def collapseWS (s : String) : String :=
  String.mk (trimData (squeezeWSAux s.data false))

/-! ## Decimal rendering of numbers (Python `str(n)` for the counter used by
`_make_unique`).  A fuel-based structural recursion keeps every definition
kernel-computable. -/

/-- The ASCII digit character for a digit value. -/
def digitChar (d : Nat) : Char := Char.ofNat (48 + d)

/-- Decimal digits of `n`, most significant first; `fuel` bounds the
recursion (any `fuel > n` gives the true digit string). -/
def natChars : Nat → Nat → List Char
  | 0, _ => []
  | fuel + 1, n =>
    if n < 10 then [digitChar n] else natChars fuel (n / 10) ++ [digitChar (n % 10)]

/-- Python `str(n)` for a natural number. -/
def natStr (n : Nat) : String := String.mk (natChars (n + 1) n)

/-- Python `str(n)` for an integer. -/
def intStr (n : Int) : String :=
  match n with
  | .ofNat m => natStr m
  | .negSucc m => "-" ++ natStr (m + 1)

/-! ## Cells -/

/-- One DataFrame cell: a string object, a numeric value (pandas float64,
modelled exactly as a rational), or null (NaN / None). -/
inductive Cell where
  | str (s : String)
  | num (q : ℚ)
  | null
deriving DecidableEq

/-- Is the cell null?  (`pandas.isna` elementwise.) -/
def cellNull : Cell → Bool
  | .null => true
  | _ => false

/-- Python `str(x)` for a cell, as performed by `Series.astype(str)`:
NaN renders as the string "nan"; numbers render with no letter characters
(the proofs only rely on the rendering containing no letters, which is true
of the real float repr as well). -/
def cellStr : Cell → String
  | .str s => s
  | .num q => intStr q.num ++ "/" ++ natStr q.den
  | .null => "nan"

/-- Exact rational subtraction computed through `mkRat` (definitionally
evaluable by the kernel; proven equal to `Sub.sub` below). -/
def ratSub (a b : ℚ) : ℚ := mkRat (a.num * b.den - b.num * a.den) (a.den * b.den)

theorem ratSub_eq (a b : ℚ) : ratSub a b = a - b := by
  have ha : (a.den : ℚ) ≠ 0 := by exact_mod_cast a.den_nz
  have hb : (b.den : ℚ) ≠ 0 := by exact_mod_cast b.den_nz
  have h1 : (a : ℚ) * (a.den : ℚ) = (a.num : ℚ) := by
    nth_rewrite 1 [← Rat.num_div_den a]
    exact div_mul_cancel₀ _ ha
  have h2 : (b : ℚ) * (b.den : ℚ) = (b.num : ℚ) := by
    nth_rewrite 1 [← Rat.num_div_den b]
    exact div_mul_cancel₀ _ hb
  rw [ratSub, Rat.mkRat_eq_div]
  push_cast
  rw [← h1, ← h2, div_eq_iff (mul_ne_zero ha hb)]
  ring

/-! ## Numeric parsing: `pd.to_numeric(…, errors="coerce")` on one value.

The pandas parser accepts an optional sign, a decimal mantissa with at most
one point and at least one digit, and an optional exponent, with surrounding
whitespace; everything else coerces to NaN.  (Float infinities are outside
the rational model.) -/

/-- Numeric value of a list of ASCII digit characters. -/
def digitsVal (ds : List Char) : Nat :=
  ds.foldl (fun a c => 10 * a + (c.toNat - 48)) 0

/-- Consume one optional leading sign; returns (isNegative, rest). -/
def parseSign : List Char → Bool × List Char
  | '-' :: cs => (true, cs)
  | '+' :: cs => (false, cs)
  | cs => (false, cs)

/-- Parse the exponent part after the mantissa: empty, or e/E then a signed
digit string consuming the whole remainder. -/
def parseExpPart : List Char → Option Int
  | [] => some 0
  | 'e' :: cs =>
    let sn := parseSign cs
    let ds := sn.2.takeWhile Char.isDigit
    let rest := sn.2.dropWhile Char.isDigit
    if ds.isEmpty || !rest.isEmpty then none
    else some (if sn.1 then -(digitsVal ds : Int) else (digitsVal ds : Int))
  | 'E' :: cs =>
    let sn := parseSign cs
    let ds := sn.2.takeWhile Char.isDigit
    let rest := sn.2.dropWhile Char.isDigit
    if ds.isEmpty || !rest.isEmpty then none
    else some (if sn.1 then -(digitsVal ds : Int) else (digitsVal ds : Int))
  | _ => none

/-- Assemble mantissa digits and exponent into an exact rational, using only
`mkRat` so that the kernel can evaluate it. -/
def assembleNum (neg : Bool) (ip fp : List Char) (e : Int) : ℚ :=
  let m : Int := (digitsVal (ip ++ fp) : Int)
  let m : Int := if neg then -m else m
  let sc : Int := e - (fp.length : Int)
  if 0 ≤ sc then mkRat (m * ((10 ^ sc.toNat : Nat) : Int)) 1
  else mkRat m (10 ^ (-sc).toNat)

/-- `pd.to_numeric(s, errors="coerce")` for one string: `some q` on a
parseable decimal, `none` (NaN) otherwise. -/
def parseNum (s : String) : Option ℚ :=
  let cs := trimData s.data
  let sn := parseSign cs
  let ip := sn.2.takeWhile Char.isDigit
  let cs1 := sn.2.dropWhile Char.isDigit
  match cs1 with
  | '.' :: cs2 =>
    let fp := cs2.takeWhile Char.isDigit
    let cs3 := cs2.dropWhile Char.isDigit
    if ip.isEmpty && fp.isEmpty then none
    else
      match parseExpPart cs3 with
      | none => none
      | some e => some (assembleNum sn.1 ip fp e)
  | _ =>
    if ip.isEmpty then none
    else
      match parseExpPart cs1 with
      | none => none
      | some e => some (assembleNum sn.1 ip [] e)

/-- `pd.to_numeric(col, errors="coerce")` elementwise: numbers pass through,
null stays null, strings are parsed (NaN on failure). -/
def toNumericCell : Cell → Cell
  | .num q => .num q
  | .null => .null
  | .str s =>
    match parseNum s with
    | some q => .num q
    | none => .null

/-- The character class kept by resilient_patch's price cleanup
`str.replace(r"[^0-9\.\-\+]", "", regex=True)`. -/
def keepNumChar (c : Char) : Bool := c.isDigit || c == '.' || c == '-' || c == '+'

/-- One price-like cell through resilient_patch.normalize_bid_table lines
100-108: `astype(str)`, strip all characters outside `[0-9.+-]`, map the
empty string to None, then `pd.to_numeric(…, errors="coerce")`.
On a numeric cell `astype(str)` renders the float and `to_numeric` parses it
back to the same value, so numbers pass through unchanged; NaN renders as
"nan", which is stripped to "" and becomes null. -/
def cleanCell : Cell → Cell
  | .num q => .num q
  | .null => .null
  | .str s =>
    let t := s.data.filter keepNumChar
    if t.isEmpty then .null
    else
      match parseNum (String.mk t) with
      | some q => .num q
      | none => .null

/-! ## Frames

A DataFrame is a list of named columns.  Label lookups (`df[name]`,
`df.get(name)`) take the first matching column, as pandas does for a unique
label; the places where pandas instead raises on a duplicated label are
modelled with an explicit duplicate check at that spot. -/

/-- A DataFrame: named columns over cells. -/
abbrev Frame := List (String × List Cell)

/-- The column labels, in order (`df.columns`). -/
def names (f : Frame) : List String := f.map (fun c => c.1)

/-- Number of occurrences of a label among the columns. -/
def countName (f : Frame) (n : String) : Nat := (names f).count n

/-- The row count (`len(df)`).  The row index is not modelled, so a frame
with no columns has zero rows. -/
def nrows (f : Frame) : Nat :=
  match f with
  | [] => 0
  | c :: _ => c.2.length

/-- Rectangularity: every column has the same length. -/
def WF (f : Frame) : Prop := ∀ c ∈ f, c.2.length = nrows f

instance : DecidablePred WF := fun f =>
  decidable_of_iff (∀ c ∈ f, c.2.length = nrows f) Iff.rfl

/-- Cells of the first column with the given label, `[]` if absent. -/
def getCellsD (f : Frame) (n : String) : List Cell :=
  match f.find? (fun c => c.1 = n) with
  | some c => c.2
  | none => []

/-- Cell of column `n` at row `i` (`none` when the column is missing or the
row is out of range). -/
def cellAt (f : Frame) (n : String) (i : Nat) : Option Cell :=
  match f.find? (fun c => c.1 = n) with
  | some c => c.2.get? i
  | none => none

/-- Keep the cells whose mask entry is true (boolean row indexing). -/
def maskFilter (m : List Bool) (cs : List Cell) : List Cell :=
  (m.zip cs).filterMap (fun p => if p.1 then some p.2 else none)

/-- Index (into the original list) of the i-th true entry of a mask. -/
def posOf : List Bool → Nat → Option Nat
  | [], _ => none
  | true :: _, 0 => some 0
  | true :: m, i + 1 => (posOf m i).map (· + 1)
  | false :: m, i => (posOf m i).map (· + 1)

/-- Apply a row mask to every column (`df[mask]`). -/
def applyMaskF (m : List Bool) (f : Frame) : Frame :=
  f.map (fun c => (c.1, maskFilter m c.2))

/-- Give the columns new labels, positionally. -/
def relabel (f : Frame) (ns : List String) : Frame :=
  ns.zip (f.map (fun c => c.2))

/-- Replace the cells of every column carrying the given label
(`df[name] = cells`; with a unique label this is the single column). -/
def mapCol (f : Frame) (n : String) (g : List Cell → List Cell) : Frame :=
  f.map (fun c => if c.1 = n then (c.1, g c.2) else c)

/-- Column selection by labels (`df[ks]`): for each requested label, all
columns carrying it, in frame order. -/
def selectByNames (f : Frame) (ks : List String) : Frame :=
  (ks.map (fun k => f.filter (fun c => c.1 = k))).flatten

/-! ## Table Repairer (resilient_fetch lines 25-46)

`_make_unique` walks the labels with a dict of occurrence counts: a first
occurrence is kept, a repeat becomes `f"{label}_{count}"`.  The counts dict
is modelled as an association list. -/

/-- The generated name `f"{c}_{k}"`. -/
def sfx (c : String) (k : Nat) : String := c ++ "_" ++ natStr k

/-- Dictionary lookup in the `seen` counts. -/
def lookupCnt (c : String) : List (String × Nat) → Option Nat
  | [] => none
  | kv :: rest => if kv.1 = c then some kv.2 else lookupCnt c rest

/-- `seen[c] += 1` on the association list. -/
def bumpCnt (c : String) : List (String × Nat) → List (String × Nat)
  | [] => []
  | kv :: rest => if kv.1 = c then (kv.1, kv.2 + 1) :: rest else kv :: bumpCnt c rest

/-- The loop body of `_make_unique`. -/
def makeUniqueAux : List (String × Nat) → List String → List String
  | _, [] => []
  | seen, c :: rest =>
    match lookupCnt c seen with
    | none => c :: makeUniqueAux ((c, 1) :: seen) rest
    | some k => sfx c (k + 1) :: makeUniqueAux (bumpCnt c seen) rest

/-- `_make_unique(cols)` (the labels are already strings, so the
`map(str, cols)` of the source is the identity here). -/
def makeUnique (cols : List String) : List String := makeUniqueAux [] cols

/-- `_flatten_columns` for a single-level header: relabel through
`_make_unique`.  (The pandas MultiIndex branch, which joins header levels
with spaces before deduplicating, is outside the single-level frame model.) -/
def flattenColumns (f : Frame) : Frame := relabel f (makeUnique (names f))

/-- Is row `i` entirely null? (row granularity of `dropna(how="all")`). -/
def rowAllNull (f : Frame) (i : Nat) : Bool :=
  f.all (fun c => cellNull ((c.2.get? i).getD .null))

/-- The row mask kept by `df.dropna(how="all")`. -/
def keepRowMask (f : Frame) : List Bool :=
  (List.range (nrows f)).map (fun i => !rowAllNull f i)

/-- `df.dropna(how="all")`: drop rows whose cells are all null. -/
def dropNullRows (f : Frame) : Frame := applyMaskF (keepRowMask f) f

/-- `df.dropna(axis=1, how="all")`: drop columns whose cells are all null. -/
def dropNullCols (f : Frame) : Frame :=
  f.filter (fun c => c.2.any (fun x => !cellNull x))

/-- `_strip_empty`: rows first, then columns. -/
def stripEmpty (f : Frame) : Frame := dropNullCols (dropNullRows f)

/-- The Table Repairer of resilient_fetch: `_flatten_columns` then
`_strip_empty` (the combination applied to every discovered table and at the
head of `normalize_bid_table_smart`). -/
def repairF (f : Frame) : Frame := stripEmpty (flattenColumns f)

/-! ## Schema Normalizer, resilient_patch.normalize_bid_table (lines 63-133) -/

/-- The column-vocabulary mapping of resilient_patch (lines 70-87), applied
to one label (`lc` is the lowercased label; `col_map.setdefault(c, "cash")`
is a plain assignment because the loop visits each distinct label once). -/
def mapColPatch (c : String) : String :=
  let lc := lowerS c
  if containsS lc "comm" || containsS lc "product" || lc = "commodity" || lc = "crop" then
    "commodity"
  else if containsS lc "deliv" || containsS lc "period" || containsS lc "month" ||
      containsS lc "delivery" then "delivery"
  else if containsS lc "cash" || containsS lc "bid" || containsS lc "price" ||
      containsS lc "$/bu" || containsS lc "$ per bu" || containsS lc "$/ bu" then "cash"
  else if containsS lc "basis" then "basis"
  else if containsS lc "fut" || containsS lc "cbot" then "futures"
  else if containsS lc "loc" then "location"
  else c

/-- `pd.api.types.is_numeric_dtype` of a column: true when no cell is a
string object (an all-null column is float64, hence numeric). -/
def numericDtype (cells : List Cell) : Bool :=
  cells.all (fun x => match x with | .str _ => false | _ => true)

/-- The `keep` list of lines 92-96: canonical fields present, and — when no
cash column resolved — at most one numeric-dtype column (under its original
label; the source does not rename it). -/
def keepWithFallback (f : Frame) : List String :=
  let keep := (["commodity", "delivery", "cash", "basis", "futures", "location"].filter
    (fun k => (names f).contains k))
  if keep.contains "cash" then keep
  else keep ++ ((names f).filter
    (fun c => !keep.contains c && numericDtype (getCellsD f c))).take 1

/-- Price cleanup of one canonical column (lines 100-108).  For a duplicated
label, `df[col]` is a DataFrame and the `.str` accessor raises. -/
def cleanOnePatch (f : Frame) (n : String) : Except String Frame :=
  if n ∈ names f then
    if 2 ≤ countName f n then .error "AttributeError: str accessor on a DataFrame"
    else .ok (mapCol f n (fun cs => cs.map cleanCell))
  else .ok f

/-- The cleanup loop over cash, basis, futures. -/
def cleanStagePatch (f : Frame) : Except String Frame :=
  match cleanOnePatch f "cash" with
  | .error e => .error e
  | .ok f1 =>
    match cleanOnePatch f1 "basis" with
    | .error e => .error e
    | .ok f2 => cleanOnePatch f2 "futures"

/-- The domain regex `corn|soy|bean|soybean` on an (already lowercased)
string. -/
def commodityText (s : String) : Bool :=
  containsS s "corn" || containsS s "soy" || containsS s "bean" || containsS s "soybean"

/-- The domain regex applied to `astype(str)` + `lower` of a cell. -/
def cellCommodity (x : Cell) : Bool := commodityText (lowerS (cellStr x))

/-- The commodity row filter (patch lines 111-117, fetch lines 252-255):
keep matching rows, but only when the filter keeps at least one row.  The
helper column `commodity_norm` of the patch version is added and dropped
again, with no net effect.  With a duplicated `commodity` label the `.str`
accessor raises in both versions. -/
def commodityFilterStage (f : Frame) : Except String Frame :=
  if "commodity" ∈ names f then
    if 2 ≤ countName f "commodity" then .error "AttributeError: str accessor on a DataFrame"
    else
      let mask := (getCellsD f "commodity").map cellCommodity
      if mask.any id then .ok (applyMaskF mask f) else .ok f
  else .ok f

/-- Location stamping (patch lines 120-121, fetch lines 257-258). -/
def locationStamp (f : Frame) (loc : String) : Frame :=
  if "location" ∈ names f then f
  else f ++ [("location", List.replicate (nrows f) (Cell.str loc))]

/-- Elementwise `cash - futures` on two float columns: NaN propagates.  The
derivation runs after the price cleanup, where every cell of these columns
is numeric or null, so string operands cannot reach it. -/
def cellSub : Cell → Cell → Cell
  | .num a, .num b => .num (ratSub a b)
  | _, _ => .null

/-- Basis derivation (patch lines 124-125, fetch lines 260-261). -/
def basisDerive (f : Frame) : Frame :=
  if "basis" ∉ names f ∧ "cash" ∈ names f ∧ "futures" ∈ names f then
    f ++ [("basis", List.zipWith cellSub (getCellsD f "cash") (getCellsD f "futures"))]
  else f

/-- Mask entry of the row filter: cash or basis non-null. -/
def orMask (a b : Cell) : Bool := !cellNull a || !cellNull b

/-- The row filter (patch lines 127-129, fetch lines 263-264):
`df[(df.get("cash").notna() | df.get("basis").notna())]`, guarded by
`"cash" in df.columns or "basis" in df.columns`.  When only one of the two
columns exists, `df.get` returns None for the other and `.notna()` raises
AttributeError; when neither exists the filter is skipped and all rows are
kept. -/
def rowFilterStage (f : Frame) : Except String Frame :=
  if "cash" ∈ names f then
    if "basis" ∈ names f then
      .ok (applyMaskF (List.zipWith orMask (getCellsD f "cash") (getCellsD f "basis")) f)
    else .error "AttributeError: NoneType object has no attribute notna"
  else
    if "basis" ∈ names f then
      .error "AttributeError: NoneType object has no attribute notna"
    else .ok f

/-- Timestamp column (`int(time.time())` is passed in as `now`). -/
def addEpoch (f : Frame) (now : Int) : Frame :=
  f ++ [("last_refresh_epoch", List.replicate (nrows f) (Cell.num (mkRat now 1)))]

/-- resilient_patch.normalize_bid_table up to (and including) location
stamping — the state at which the basis-derivation guard is evaluated. -/
def patchPreBasis (f : Frame) (loc : String) : Except String Frame :=
  let f1 := relabel f ((names f).map collapseWS)
  let f2 := relabel f1 ((names f1).map mapColPatch)
  let f3 := selectByNames f2 (keepWithFallback f2)
  match cleanStagePatch f3 with
  | .error e => .error e
  | .ok f4 =>
    match commodityFilterStage f4 with
    | .error e => .error e
    | .ok f5 => .ok (locationStamp f5 loc)

/-- resilient_patch.normalize_bid_table (lines 63-133). -/
def normalizePatchE (f : Frame) (loc : String) (now : Int) : Except String Frame :=
  match patchPreBasis f loc with
  | .error e => .error e
  | .ok h =>
    match rowFilterStage (basisDerive h) with
    | .error e => .error e
    | .ok h1 => .ok (addEpoch h1 now)

/-! ## Schema Normalizer, resilient_fetch.normalize_bid_table_smart
(lines 196-270).

The source file resilient_fetch.py doubles every backslash inside its raw
regex strings.  Consequences modelled below: the delivery branch regex
matches through its `deliv` alternative anyway; the `delivery_start` /
`delivery_end` branches are unreachable (their match implies the earlier
delivery branch matched); the dollar-sign alternative of the cash branch is
unsatisfiable; and — crucially — the price-cleanup character class
`[^0-9.\\-+]` contains the reversed range backslash-to-plus, so
`re.compile` raises `re.error` as soon as any of the cash/basis/futures
columns exists at line 233. -/

/-- Does `lc` match `delivery\\s*start` (a literal backslash, then a run of
the letter s, then `start`)?  Unreachable in the pipeline, kept for
fidelity. -/
def matchesDelivStart (lc : String) : Bool :=
  lc.data.tails.any (fun t =>
    ("delivery\\".data).isPrefixOf t &&
    ((t.drop 9).head? == some 's') &&
    ("tart".data).isPrefixOf ((t.drop 9).dropWhile (fun c => c == 's')))

/-- Does `lc` match `delivery\\s*end`?  Unreachable, kept for fidelity. -/
def matchesDelivEnd (lc : String) : Bool :=
  lc.data.tails.any (fun t =>
    ("delivery\\".data).isPrefixOf t &&
    ("end".data).isPrefixOf ((t.drop 9).dropWhile (fun c => c == 's')))

/-- The column-vocabulary mapping of resilient_fetch (lines 203-215);
`lc = str(c).lower().strip()`. -/
def mapColFetch (c : String) : String :=
  let lc := trimS (lowerS c)
  if containsS lc "comm" || containsS lc "product" || containsS lc "crop" then "commodity"
  else if lc = "delivery" || ("delivery\\s").isPrefixOf lc || containsS lc "deliv" ||
      containsS lc "month" || containsS lc "period" then "delivery"
  else if matchesDelivStart lc then "delivery_start"
  else if matchesDelivEnd lc then "delivery_end"
  else if lc = "name" then "location"
  else if containsS lc "basis" then "basis"
  else if containsS lc "fut" || containsS lc "cbot" then "futures"
  else if lc = "price" || lc = "price\n" || containsS lc "cash" || containsS lc "bid" then
    "cash"
  else if containsS lc "location" || containsS lc "loc" then "location"
  else c

/-- Commodity-family test on a label (`re.search(r"corn|soy|bean|soybean", c, re.I)`). -/
def isCommodityLikeLabel (c : String) : Bool :=
  containsCI c "corn" || containsCI c "soy" || containsCI c "bean" || containsCI c "soybean"

/-- Delivery-label test of `_long_form` line 172. -/
def isDeliveryLabel (c : String) : Bool :=
  containsCI c "deliv" || containsCI c "month" || containsCI c "period" ||
  containsCI c "delivery"

/-- Location-label test of `_long_form` line 173. -/
def isLocationLabel (c : String) : Bool :=
  containsCI c "location" || containsCI c "loc" || containsCI c "name"

/-- `df.melt(id_vars, value_vars, var_name="commodity", value_name="cash")`:
one block of rows per value column, id columns repeated per block. -/
def meltF (f : Frame) (idN valN : List String) : Frame :=
  (idN.map (fun k => (k, (valN.map (fun _ => getCellsD f k)).flatten)))
  ++ [("commodity", (valN.map (fun v => List.replicate (nrows f) (Cell.str v))).flatten),
      ("cash", (valN.map (fun v => getCellsD f v)).flatten)]

/-- `_long_form` (lines 170-194).  `df.columns[0]` raises IndexError on a
column-less frame; `df[first_col]` with a duplicated first label is a
DataFrame whose `.str` accessor raises. -/
def longForm (f : Frame) : Except String Frame :=
  let commCols := (names f).filter isCommodityLikeLabel
  if commCols.isEmpty then
    match f with
    | [] => .error "IndexError: index 0 is out of bounds"
    | c0 :: _ =>
      if containsCI c0.1 "comm" || containsCI c0.1 "product" || containsCI c0.1 "crop" then
        .ok f
      else if 2 ≤ countName f c0.1 then
        .error "AttributeError: str accessor on a DataFrame"
      else if (c0.2.take 20).any cellCommodity then
        .ok (f.map (fun c => if c.1 = c0.1 then ("commodity", c.2) else c))
      else .ok f
  else
    .ok (meltF f
      (((names f).find? isDeliveryLabel).toList ++ ((names f).find? isLocationLabel).toList)
      commCols)

/-- Lines 219-226.  After `mapColFetch` no column can be labelled
`delivery_start` or `delivery_end` (any label containing `deliv` was mapped
to `delivery`), so the synthesis block 219-223 is unreachable; were it
reached with one of the two columns absent, `"".fillna` would raise, so the
guard is modelled as an error.  Otherwise a missing delivery column is
filled with the sentinel "Nearby". -/
def deliveryStage (f : Frame) : Except String Frame :=
  if "delivery" ∈ names f then .ok f
  else if "delivery_start" ∈ names f ∨ "delivery_end" ∈ names f then
    .error "AttributeError: str object has no attribute fillna"
  else .ok (f ++ [("delivery", List.replicate (nrows f) (Cell.str "Nearby"))])

/-- Lines 229-234: the numeric-cleanup loop.  Its character class
`[^0-9.\\-+]` (doubled backslash in the source) is an invalid regex —
`bad character range \\-+` — so the first present price-like column makes
`Series.str.replace` raise `re.error`; with none present the loop body
never runs. -/
def cleanStageFetch (f : Frame) : Except String Frame :=
  if "cash" ∈ names f ∨ "basis" ∈ names f ∨ "futures" ∈ names f then
    .error "re.error: bad character range"
  else .ok f

/-- How many cells of a column survive `pd.to_numeric(df[c], errors="coerce")`
with a non-null value (`vals.notna().sum()`). -/
def numCount (cells : List Cell) : Nat :=
  cells.countP (fun x => !cellNull (toNumericCell x))

/-- The fallback candidates of lines 238-245, with their counts, in column
order.  For a duplicated label `df[c]` is a DataFrame, `pd.to_numeric`
raises inside the per-column try, and the label contributes no candidate. -/
def fallbackCands (f : Frame) : List (String × Nat) :=
  f.filterMap (fun c =>
    if 2 ≤ countName f c.1 then none
    else if max 1 (nrows f / 3) ≤ numCount c.2 then some (c.1, numCount c.2)
    else none)

/-- Insert a later candidate after every earlier candidate with a
greater-or-equal count. -/
def insertDesc (x : String × Nat) : List (String × Nat) → List (String × Nat)
  | [] => [x]
  | y :: ys => if y.2 < x.2 then x :: y :: ys else y :: insertDesc x ys

/-- `numeric_candidates.sort(key=lambda x: x[1], reverse=True)`: Python's
sort is stable, so the descending order with first-seen ties is exactly the
left-to-right insertion computed here. -/
def sortDesc (l : List (String × Nat)) : List (String × Nat) :=
  l.foldl (fun acc x => insertDesc x acc) []

/-- Lines 236-249: when no cash column resolved, rename the best candidate
(highest count, first seen on ties) to `cash`. -/
def cashFallbackStage (f : Frame) : Frame :=
  if "cash" ∈ names f then f
  else
    match (sortDesc (fallbackCands f)).head? with
    | none => f
    | some b => f.map (fun c => if c.1 = b.1 then ("cash", c.2) else c)

/-- One maximal run of a literal backslash followed by letters s becomes a
single space: `str.replace(r"\\s+", " ", regex=True)` with the doubled
backslash of line 266 (the flag tracks being inside such a run). -/
def replBsSAux : List Char → Bool → List Char
  | [], _ => []
  | c :: cs, inRun =>
    if inRun && c == 's' then replBsSAux cs true
    else if c == '\\' && cs.head? == some 's' then ' ' :: replBsSAux cs true
    else c :: replBsSAux cs false

/-- One delivery cell through line 266: `astype(str)`, the (doubled
backslash) whitespace collapse, then `str.strip()`. -/
def deliveryCleanupCell (x : Cell) : Cell :=
  .str (trimS (String.mk (replBsSAux (cellStr x).data false)))

/-- Line 266.  `df["delivery"]` raises KeyError when the column is gone
(the cash fallback may have renamed it) and the `.str` accessor raises on a
duplicated label. -/
def deliveryCleanup (f : Frame) : Except String Frame :=
  if "delivery" ∈ names f then
    if 2 ≤ countName f "delivery" then .error "AttributeError: str accessor on a DataFrame"
    else .ok (mapCol f "delivery" (fun cs => cs.map deliveryCleanupCell))
  else .error "KeyError: delivery"

/-- The canonical display order of line 268. -/
def canonOrder : List String :=
  ["commodity", "delivery", "cash", "basis", "futures", "location", "last_refresh_epoch"]

/-- Lines 268-270: canonical columns first, the rest in frame order. -/
def reorderStage (f : Frame) : Frame :=
  let ord := canonOrder.filter (fun c => (names f).contains c)
  selectByNames f (ord ++ (names f).filter (fun c => !ord.contains c))

/-- resilient_fetch.normalize_bid_table_smart up to (and including) the
numeric-cleanup stage — the state at which the cash fallback runs. -/
def fetchPreFallback (f : Frame) : Except String Frame :=
  match longForm (repairF f) with
  | .error e => .error e
  | .ok f1 =>
    let f2 := relabel f1 ((names f1).map mapColFetch)
    match deliveryStage f2 with
    | .error e => .error e
    | .ok f3 => cleanStageFetch f3

/-- normalize_bid_table_smart up to (and including) basis derivation — the
state at which the row filter is evaluated. -/
def fetchPreRow (f : Frame) (loc : String) : Except String Frame :=
  match fetchPreFallback f with
  | .error e => .error e
  | .ok h =>
    match commodityFilterStage (cashFallbackStage h) with
    | .error e => .error e
    | .ok h1 => .ok (basisDerive (locationStamp h1 loc))

/-- resilient_fetch.normalize_bid_table_smart (lines 196-270). -/
def normalizeSmartE (f : Frame) (loc : String) (now : Int) : Except String Frame :=
  match fetchPreRow f loc with
  | .error e => .error e
  | .ok h =>
    match rowFilterStage h with
    | .error e => .error e
    | .ok h1 =>
      match deliveryCleanup h1 with
      | .error e => .error e
      | .ok h2 => .ok (reorderStage (addEpoch h2 now))

/-! ## Best-candidate selection and the per-source entry point
(resilient_fetch.fetch_coop_table, lines 272-333) -/

/-- Normalized row count of one candidate; a candidate whose normalization
raises scores zero (it can never win the strict comparison). -/
def scoreOf (loc : String) (now : Int) (t : Frame) : Nat :=
  match normalizeSmartE t loc now with
  | .ok g => nrows g
  | .error _ => 0

/-- The selection loop of lines 295-313: state `(best, best_rows)`, updated
only on a strictly greater normalized row count; per-candidate failures are
caught and skipped. -/
def bestLoop (loc : String) (now : Int) : List Frame → Option Frame → Nat → Option Frame × Nat
  | [], b, r => (b, r)
  | t :: ts, b, r =>
    match normalizeSmartE t loc now with
    | .ok g => if r < nrows g then bestLoop loc now ts (some g) (nrows g)
               else bestLoop loc now ts b r
    | .error _ => bestLoop loc now ts b r

/-- The per-candidate telemetry (`per_table_meta`): index paired with either
the normalized row count or the recorded normalization error. -/
def metaLoop (loc : String) (now : Int) : Nat → List Frame → List (Nat × Except String Nat)
  | _, [] => []
  | i, t :: ts => (i, (normalizeSmartE t loc now).map nrows) :: metaLoop loc now (i + 1) ts

deriving instance DecidableEq for Except

/-- The typed per-source outcome (the result dict of fetch_coop_table,
restricted to the fields the claims are about). -/
structure FetchResult where
  ok : Bool
  data : Option Frame
  error : Option String
  statusCode : Option Nat
  contentLen : Option Nat
  tableTagSeen : Option Bool
  perTable : List (Nat × Except String Nat)
deriving DecidableEq

/-- A fetched page (status code and body text). -/
structure Page where
  status : Nat
  text : String
deriving DecidableEq

/-- `"<table" in html.lower()`. -/
def tableTagIn (html : String) : Bool := containsS (lowerS html) "<table"

/-- Lines 295-330: selection over a non-empty candidate list, ending in the
success record or the `normalized_empty` failure (with per-candidate
telemetry in both cases). -/
def fetchParsePhase (tables : List Frame) (loc : String) (now : Int) : FetchResult :=
  match bestLoop loc now tables none 0 with
  | (none, _) =>
    ⟨false, none, some "normalized_empty", none, none, none, metaLoop loc now 0 tables⟩
  | (some g, _) =>
    if nrows g = 0 then
      ⟨false, none, some "normalized_empty", none, none, none, metaLoop loc now 0 tables⟩
    else ⟨true, some g, none, none, none, none, metaLoop loc now 0 tables⟩

/-- fetch_coop_table (lines 272-333).  The HTTP layer and the discovery
layer (read_tables_any, whose parsing work is done by external libraries)
enter as oracles; an oracle error models the exception the corresponding
try/except catches.  No retry exists: the HTTP oracle is consulted once. -/
def fetchCoopFetch (http : Except String Page)
    (discover : Page → Except String (List Frame)) (loc : String) (now : Int) : FetchResult :=
  match http with
  | .error e => ⟨false, none, some ("http_error: " ++ e), none, none, none, []⟩
  | .ok page =>
    match discover page with
    | .error e => ⟨false, none, some ("parse_error: " ++ e), none, none, none, []⟩
    | .ok tables =>
      if tables.isEmpty then
        ⟨false, none, some "no_tables_found", some page.status, some page.text.length,
          some (tableTagIn page.text), []⟩
      else fetchParsePhase tables loc now

/-! ## Table discovery (read_tables_any of both files)

The HTML parsing strategies (pandas.read_html per flavor, per-element
BeautifulSoup extraction, CSV links, iframes) are external; each strategy's
output list of raw tables enters as a parameter. -/

/-- The structural signature of line 57 of resilient_patch:
column labels (as strings) plus the shape `(len(df), len(df.columns))`. -/
def sigOf (f : Frame) : List String × Nat × Nat := (names f, nrows f, f.length)

/-- The dedup loop of resilient_patch lines 53-61. -/
def dedupAux : List Frame → List (List String × Nat × Nat) → List Frame
  | [], _ => []
  | f :: fs, seen =>
    if sigOf f ∈ seen then dedupAux fs seen else f :: dedupAux fs (sigOf f :: seen)

/-- resilient_patch.read_tables_any (lines 30-61): concatenate the strategy
outputs, then deduplicate by structural signature, keeping first
occurrences. -/
def readTablesAnyPatch (lxmlT html5T soupT : List Frame) : List Frame :=
  dedupAux (lxmlT ++ html5T ++ soupT) []

/-- resilient_fetch.read_tables_any (lines 50-168): concatenate all strategy
outputs and repair each table; no deduplication is performed. -/
def readTablesAnyFetch (strategyT : List (List Frame)) : List Frame :=
  strategyT.flatten.map repairF

/-! ## Theory of the decimal rendering and the generated `name_k` labels -/

theorem digitChar_toNat {d : Nat} (h : d < 10) : (digitChar d).toNat = 48 + d := by
  interval_cases d <;> decide

theorem digitChar_ne_underscore {d : Nat} (h : d < 10) : digitChar d ≠ '_' := by
  interval_cases d <;> decide

theorem digitChar_inj {d e : Nat} (hd : d < 10) (he : e < 10)
    (h : digitChar d = digitChar e) : d = e := by
  have := congrArg Char.toNat h
  rw [digitChar_toNat hd, digitChar_toNat he] at this
  omega

theorem natChars_fuel : ∀ fuel n, n < fuel → natChars fuel n = natChars (n + 1) n := by
  intro fuel
  induction fuel using Nat.strong_induction_on with
  | _ fuel ih =>
    intro n hn
    match fuel, hn with
    | fuel + 1, hn =>
      by_cases h10 : n < 10
      · simp only [natChars, if_pos h10]
      · have hpos : 0 < n := by omega
        have hdiv : n / 10 < n := Nat.div_lt_self hpos (by omega)
        simp only [natChars, if_neg h10]
        rw [ih fuel (by omega) (n / 10) (by omega),
          ih n (by omega) (n / 10) hdiv]

theorem digitsVal_natChars : ∀ fuel n, n < fuel → digitsVal (natChars fuel n) = n := by
  intro fuel
  induction fuel using Nat.strong_induction_on with
  | _ fuel ih =>
    intro n hn
    match fuel, hn with
    | fuel + 1, hn =>
      by_cases h10 : n < 10
      · simp only [natChars, if_pos h10, digitsVal, List.foldl]
        rw [digitChar_toNat h10]
        omega
      · have hpos : 0 < n := by omega
        have hdiv : n / 10 < n := Nat.div_lt_self hpos (by omega)
        simp only [natChars, if_neg h10]
        have hmod : n % 10 < 10 := Nat.mod_lt _ (by omega)
        unfold digitsVal
        rw [List.foldl_append]
        have hrec : digitsVal (natChars fuel (n / 10)) = n / 10 := ih fuel (by omega) _ (by omega)
        unfold digitsVal at hrec
        rw [hrec]
        simp only [List.foldl]
        rw [digitChar_toNat hmod]
        omega

theorem natStr_inj {a b : Nat} (h : natStr a = natStr b) : a = b := by
  have hd : natChars (a + 1) a = natChars (b + 1) b := congrArg String.data h
  have := congrArg digitsVal hd
  rwa [digitsVal_natChars _ _ (Nat.lt_succ_self a),
    digitsVal_natChars _ _ (Nat.lt_succ_self b)] at this

theorem natChars_mem_digit : ∀ fuel n c, c ∈ natChars fuel n → ∃ d, d < 10 ∧ c = digitChar d := by
  intro fuel
  induction fuel using Nat.strong_induction_on with
  | _ fuel ih =>
    intro n c hc
    match fuel, hc with
    | fuel + 1, hc =>
      by_cases h10 : n < 10
      · simp only [natChars, if_pos h10, List.mem_singleton] at hc
        exact ⟨n, h10, hc⟩
      · simp only [natChars, if_neg h10, List.mem_append, List.mem_singleton] at hc
        rcases hc with hc | hc
        · exact ih fuel (by omega) _ _ hc
        · exact ⟨n % 10, Nat.mod_lt _ (by omega), hc⟩

theorem natChars_no_underscore {fuel n : Nat} : '_' ∉ natChars fuel n := by
  intro hmem
  obtain ⟨d, hd, he⟩ := natChars_mem_digit fuel n _ hmem
  exact digitChar_ne_underscore hd he.symm

theorem natChars_ne_nil : ∀ fuel n, 0 < fuel → natChars fuel n ≠ [] := by
  intro fuel n h
  match fuel, h with
  | fuel + 1, _ =>
    by_cases h10 : n < 10
    · simp [natChars, if_pos h10]
    · simp [natChars, if_neg h10]

/-- Splitting at a separator character that occurs in neither left part. -/
theorem sep_split : ∀ (l1 : List Char) (r1 : List Char) (l2 r2 : List Char),
    '_' ∉ l1 → '_' ∉ l2 → l1 ++ '_' :: r1 = l2 ++ '_' :: r2 → l1 = l2 ∧ r1 = r2 := by
  intro l1
  induction l1 with
  | nil =>
    intro r1 l2 r2 _ h2 heq
    cases l2 with
    | nil => simp_all
    | cons x xs =>
      simp only [List.nil_append, List.cons_append, List.cons.injEq] at heq
      exact absurd (heq.1 ▸ List.mem_cons_self x xs) h2
  | cons x xs ih =>
    intro r1 l2 r2 h1 h2 heq
    cases l2 with
    | nil =>
      simp only [List.cons_append, List.nil_append, List.cons.injEq] at heq
      exact absurd (heq.1 ▸ List.mem_cons_self x xs) h1
    | cons y ys =>
      simp only [List.cons_append, List.cons.injEq] at heq
      have hx : x ∉ ({'_'} : Set Char) := by
        intro hm
        exact h1 (by simp_all)
      obtain ⟨hl, hr⟩ := ih r1 ys r2 (fun hm => h1 (List.mem_cons_of_mem _ hm))
        (fun hm => h2 (List.mem_cons_of_mem _ hm)) heq.2
      exact ⟨by rw [heq.1, hl], hr⟩

theorem sfx_data (c : String) (k : Nat) :
    (sfx c k).data = c.data ++ '_' :: natChars (k + 1) k := by
  show (c ++ "_" ++ natStr k).data = _
  rw [String.data_append, String.data_append]
  simp [natStr]

theorem sfx_inj {c c' : String} {j k : Nat} (h : sfx c j = sfx c' k) : c = c' ∧ j = k := by
  have hd : c.data ++ '_' :: natChars (j + 1) j = c'.data ++ '_' :: natChars (k + 1) k := by
    rw [← sfx_data, ← sfx_data, h]
  have hrev := congrArg List.reverse hd
  simp only [List.reverse_append, List.reverse_cons, List.append_assoc, List.singleton_append]
    at hrev
  have hsplit := sep_split _ _ _ _
    (fun hm => natChars_no_underscore (List.mem_reverse.mp hm))
    (fun hm => natChars_no_underscore (List.mem_reverse.mp hm)) hrev
  have hc : c = c' := by
    apply String.ext
    exact List.reverse_inj.mp hsplit.2
  have hn : natChars (j + 1) j = natChars (k + 1) k := List.reverse_inj.mp hsplit.1
  have hj : j = k := by
    have := congrArg digitsVal hn
    rwa [digitsVal_natChars _ _ (Nat.lt_succ_self j),
      digitsVal_natChars _ _ (Nat.lt_succ_self k)] at this
  exact ⟨hc, hj⟩

theorem ne_sfx_self (c : String) (k : Nat) : c ≠ sfx c k := by
  intro h
  have := congrArg (fun s => s.data.length) h
  simp only [sfx_data, List.length_append, List.length_cons] at this
  omega

theorem sfx_ne_of_base_ne {c c' : String} {j k : Nat} (h : c ≠ c') : sfx c j ≠ sfx c' k :=
  fun he => h (sfx_inj he).1

theorem sfx_ne_of_num_ne {c c' : String} {j k : Nat} (h : j ≠ k) : sfx c j ≠ sfx c' k :=
  fun he => h (sfx_inj he).2

/-! ## Characterisation of `_make_unique`

The m-th occurrence of a label `c` (counting from 1) is emitted as `c`
when m = 1 and as `c_m` otherwise. -/

/-- The label emitted for the m-th occurrence of `c`. -/
def tokenOf (c : String) (m : Nat) : String := if m ≤ 1 then c else sfx c m

/-- Reference recursion: `h` is the list of labels already processed. -/
def muSpec (h : List String) : List String → List String
  | [] => []
  | c :: rest => tokenOf c (h.count c + 1) :: muSpec (h ++ [c]) rest

theorem lookupCnt_bump (x c : String) :
    ∀ seen, lookupCnt x (bumpCnt c seen) =
      if x = c then (lookupCnt x seen).map (· + 1) else lookupCnt x seen := by
  intro seen
  induction seen with
  | nil => by_cases hx : x = c <;> simp [bumpCnt, lookupCnt, hx]
  | cons kv rest ih =>
    by_cases hk : kv.1 = c
    · by_cases hx : x = c
      · subst hx
        simp [bumpCnt, lookupCnt, hk]
      · have hkx : ¬kv.1 = x := fun h => hx (h.symm.trans hk)
        have hcx : ¬c = x := fun h => hx h.symm
        simp [bumpCnt, lookupCnt, hk, hkx, hx, hcx]
    · by_cases hkx : kv.1 = x
      · have hx : ¬x = c := fun h => hk (hkx.symm ▸ h)
        simp [bumpCnt, lookupCnt, hk, hkx, hx]
      · simp [bumpCnt, lookupCnt, hk, hkx, ih]

/-- The counts dictionary agrees with the occurrence counts of the
processed prefix. -/
def seenInv (seen : List (String × Nat)) (h : List String) : Prop :=
  ∀ c, lookupCnt c seen = if h.count c = 0 then none else some (h.count c)

theorem count_cons_eq (c x : String) (l : List String) :
    (c :: l).count x = l.count x + if c = x then 1 else 0 := by
  simp [List.count_cons]

theorem count_append_singleton (h : List String) (c x : String) :
    (h ++ [c]).count x = h.count x + if c = x then 1 else 0 := by
  rw [List.count_append, count_cons_eq]
  simp [List.count_nil]

theorem makeUniqueAux_eq_muSpec :
    ∀ rest seen h, seenInv seen h → makeUniqueAux seen rest = muSpec h rest := by
  intro rest
  induction rest with
  | nil => intro seen h _; rfl
  | cons c rest ih =>
    intro seen h hinv
    have hc := hinv c
    by_cases h0 : h.count c = 0
    · rw [if_pos h0] at hc
      have htok : tokenOf c (h.count c + 1) = c := by
        rw [h0, tokenOf, if_pos (by omega)]
      simp only [makeUniqueAux, hc, muSpec, htok]
      congr 1
      apply ih
      intro x
      show lookupCnt x ((c, 1) :: seen) = _
      by_cases hx : c = x
      · subst hx
        rw [count_append_singleton, h0, if_pos rfl]
        simp [lookupCnt]
      · have hstep : lookupCnt x ((c, 1) :: seen) = lookupCnt x seen := by
          simp [lookupCnt, hx]
        rw [hstep, count_append_singleton]
        simp only [if_neg hx, Nat.add_zero]
        exact hinv x
    · rw [if_neg h0] at hc
      have htok : tokenOf c (h.count c + 1) = sfx c (h.count c + 1) := by
        rw [tokenOf, if_neg (by omega)]
      simp only [makeUniqueAux, hc, muSpec, htok]
      congr 1
      apply ih
      intro x
      rw [lookupCnt_bump]
      by_cases hx : x = c
      · subst hx
        rw [if_pos rfl, hinv x, if_neg h0, count_append_singleton, if_pos rfl]
        have hne : ¬(List.count x h + 1 = 0) := by omega
        rw [if_neg hne]
        rfl
      · have hcx : ¬c = x := fun he => hx he.symm
        rw [if_neg hx, hinv x, count_append_singleton]
        simp only [if_neg hcx, Nat.add_zero]

theorem makeUnique_eq_muSpec (cols : List String) : makeUnique cols = muSpec [] cols := by
  apply makeUniqueAux_eq_muSpec
  intro c
  simp [lookupCnt, List.count_nil]

theorem muSpec_mem : ∀ rest h x, x ∈ muSpec h rest →
    ∃ c, c ∈ rest ∧ ∃ m, x = tokenOf c m ∧ h.count c + 1 ≤ m ∧ m ≤ h.count c + rest.count c := by
  intro rest
  induction rest with
  | nil => intro h x hx; simp [muSpec] at hx
  | cons c rest ih =>
    intro h x hx
    simp only [muSpec, List.mem_cons] at hx
    rcases hx with hx | hx
    · refine ⟨c, List.mem_cons_self c rest, h.count c + 1, hx, le_refl _, ?_⟩
      have : (c :: rest).count c = rest.count c + 1 := List.count_cons_self c rest
      omega
    · obtain ⟨c', hc', m, hm, hlo, hhi⟩ := ih (h ++ [c]) x hx
      refine ⟨c', List.mem_cons_of_mem c hc', m, hm, ?_, ?_⟩
      · rw [count_append_singleton] at hlo
        omega
      · rw [count_append_singleton] at hhi
        rw [count_cons_eq]
        omega

/-- The proviso under which the claimed uniqueness invariant holds: no input
label is itself of the generated form `other-input-label_k`. -/
def noSfxCollision (cols : List String) : Prop :=
  ∀ c ∈ cols, ∀ c' ∈ cols, ∀ k ∈ List.range (cols.length + 1), 2 ≤ k → c ≠ sfx c' k

instance : DecidablePred noSfxCollision := fun cols =>
  decidable_of_iff
    (∀ c ∈ cols, ∀ c' ∈ cols, ∀ k ∈ List.range (cols.length + 1), 2 ≤ k → c ≠ sfx c' k)
    Iff.rfl

theorem muSpec_nodup (cols : List String) (H : noSfxCollision cols) :
    ∀ rest h, h ++ rest = cols → (muSpec h rest).Nodup := by
  intro rest
  induction rest with
  | nil => intro h _; exact List.nodup_nil
  | cons c rest ih =>
    intro h hcols
    have hcols' : (h ++ [c]) ++ rest = cols := by
      rw [List.append_assoc]
      simpa using hcols
    rw [muSpec, List.nodup_cons]
    refine ⟨?_, ih (h ++ [c]) hcols'⟩
    intro hmem
    obtain ⟨c', hc', m', hm', hlo, hhi⟩ := muSpec_mem rest (h ++ [c]) _ hmem
    have hcmem : c ∈ cols := by
      rw [← hcols]
      exact List.mem_append_right h (List.mem_cons_self c rest)
    have hcmem' : c' ∈ cols := by
      rw [← hcols]
      exact List.mem_append_right h (List.mem_cons_of_mem c hc')
    -- occurrence numbers are bounded by the total count in cols
    have hcount : cols.count c' = (h ++ [c]).count c' + rest.count c' := by
      rw [← hcols', List.count_append]
    have hm'le : m' ≤ cols.length := by
      have := List.count_le_length c' cols
      omega
    have hmh : (h ++ [c]).count c = h.count c + 1 := by
      rw [count_append_singleton, if_pos rfl]
    have hmhle : h.count c + 1 ≤ cols.length := by
      have h2 : cols.count c = (h ++ [c]).count c + rest.count c := by
        rw [← hcols', List.count_append]
      have := List.count_le_length c cols
      omega
    by_cases hcc : c' = c
    · subst hcc
      -- same base label: the occurrence numbers differ
      have hmgt : h.count c' + 1 < m' := by omega
      by_cases hle : h.count c' + 1 ≤ 1
      · rw [tokenOf, if_pos hle] at hm'
        rw [tokenOf, if_neg (by omega)] at hm'
        exact ne_sfx_self c' m' hm'
      · rw [tokenOf, if_neg hle] at hm'
        rw [tokenOf, if_neg (by omega)] at hm'
        exact sfx_ne_of_num_ne (by omega) hm'.symm
    · by_cases hle1 : h.count c + 1 ≤ 1
      · by_cases hle2 : m' ≤ 1
        · rw [tokenOf, if_pos hle1] at hm'
          rw [tokenOf, if_pos hle2] at hm'
          exact hcc hm'.symm
        · rw [tokenOf, if_pos hle1] at hm'
          rw [tokenOf, if_neg hle2] at hm'
          exact H c hcmem c' hcmem' m' (List.mem_range.mpr (by omega)) (by omega) hm'
      · by_cases hle2 : m' ≤ 1
        · rw [tokenOf, if_neg hle1] at hm'
          rw [tokenOf, if_pos hle2] at hm'
          exact H c' hcmem' c hcmem (h.count c + 1) (List.mem_range.mpr (by omega))
            (by omega) hm'.symm
        · rw [tokenOf, if_neg hle1] at hm'
          rw [tokenOf, if_neg hle2] at hm'
          exact sfx_ne_of_base_ne (fun he => hcc he.symm) hm'

theorem muSpec_of_fresh : ∀ rest h, (∀ c ∈ rest, h.count c = 0) → rest.Nodup →
    muSpec h rest = rest := by
  intro rest
  induction rest with
  | nil => intro h _ _; rfl
  | cons c rest ih =>
    intro h hfresh hnd
    rw [List.nodup_cons] at hnd
    rw [muSpec, hfresh c (List.mem_cons_self c rest), tokenOf, if_pos (by omega)]
    congr 1
    apply ih
    · intro c' hc'
      rw [count_append_singleton, hfresh c' (List.mem_cons_of_mem c hc'),
        if_neg (fun he => hnd.1 (by rw [he]; exact hc')), Nat.add_zero]
    · exact hnd.2

theorem makeUnique_of_nodup {cols : List String} (h : cols.Nodup) : makeUnique cols = cols := by
  rw [makeUnique_eq_muSpec]
  exact muSpec_of_fresh cols [] (fun c _ => List.count_nil c) h

theorem muSpec_length : ∀ rest h, (muSpec h rest).length = rest.length := by
  intro rest
  induction rest with
  | nil => intro h; rfl
  | cons c rest ih => intro h; simp [muSpec, ih]

theorem makeUnique_length (cols : List String) : (makeUnique cols).length = cols.length := by
  rw [makeUnique_eq_muSpec]; exact muSpec_length cols []

/-! ## Mask-filtering toolkit -/

theorem cellNull_false_iff (c : Cell) : cellNull c = false ↔ c ≠ Cell.null := by
  cases c <;> simp [cellNull]

theorem maskFilter_nil_mask (cs : List Cell) : maskFilter [] cs = [] := rfl

theorem maskFilter_nil_cells (m : List Bool) : maskFilter m [] = [] := by
  simp [maskFilter]

theorem maskFilter_cons_true (m : List Bool) (x : Cell) (cs : List Cell) :
    maskFilter (true :: m) (x :: cs) = x :: maskFilter m cs := rfl

theorem maskFilter_cons_false (m : List Bool) (x : Cell) (cs : List Cell) :
    maskFilter (false :: m) (x :: cs) = maskFilter m cs := rfl

theorem maskFilter_get? : ∀ (m : List Bool) (cs : List Cell), cs.length = m.length →
    ∀ i, (maskFilter m cs).get? i = (posOf m i).bind (fun j => cs.get? j) := by
  intro m
  induction m with
  | nil =>
    intro cs hlen i
    have : cs = [] := List.length_eq_zero.mp hlen
    subst this
    rfl
  | cons b m ih =>
    intro cs hlen i
    match cs, hlen with
    | x :: cs, hlen =>
      have hlen' : cs.length = m.length := by simpa using hlen
      cases b with
      | true =>
        cases i with
        | zero => simp [maskFilter_cons_true, posOf]
        | succ i =>
          rw [maskFilter_cons_true]
          simp only [List.get?_cons_succ, posOf, ih cs hlen' i]
          cases posOf m i <;> simp
      | false =>
        rw [maskFilter_cons_false]
        simp only [posOf, ih cs hlen' i]
        cases posOf m i <;> simp

theorem posOf_true : ∀ (m : List Bool) (i j : Nat), posOf m i = some j → m.get? j = some true := by
  intro m
  induction m with
  | nil => intro i j h; simp [posOf] at h
  | cons b m ih =>
    intro i j h
    cases b with
    | true =>
      cases i with
      | zero =>
        simp only [posOf, Option.some.injEq] at h
        subst h
        rfl
      | succ i =>
        simp only [posOf, Option.map_eq_some'] at h
        obtain ⟨j', hj', rfl⟩ := h
        simpa using ih i j' hj'
    | false =>
      simp only [posOf, Option.map_eq_some'] at h
      obtain ⟨j', hj', rfl⟩ := h
      simpa using ih i j' hj'

theorem maskFilter_mem : ∀ (m : List Bool) (cs : List Cell) (j : Nat) (a : Cell),
    m.get? j = some true → cs.get? j = some a → a ∈ maskFilter m cs := by
  intro m
  induction m with
  | nil => intro cs j a h; simp at h
  | cons b m ih =>
    intro cs j a hm hc
    match cs with
    | [] => simp at hc
    | x :: cs =>
      cases j with
      | zero =>
        simp only [List.get?_cons_zero, Option.some.injEq] at hm hc
        subst hm
        subst hc
        rw [maskFilter_cons_true]
        exact List.mem_cons_self x _
      | succ j =>
        simp only [List.get?_cons_succ] at hm hc
        cases b with
        | true => exact List.mem_cons_of_mem x (ih cs j a hm hc)
        | false => rw [maskFilter_cons_false]; exact ih cs j a hm hc

theorem maskFilter_length : ∀ (m : List Bool) (cs : List Cell), cs.length = m.length →
    (maskFilter m cs).length = m.countP id := by
  intro m
  induction m with
  | nil =>
    intro cs hlen
    have : cs = [] := List.length_eq_zero.mp hlen
    subst this
    rfl
  | cons b m ih =>
    intro cs hlen
    match cs, hlen with
    | x :: cs, hlen =>
      have hlen' : cs.length = m.length := by simpa using hlen
      cases b with
      | true => simp [maskFilter_cons_true, ih cs hlen', List.countP_cons]
      | false => simp [maskFilter_cons_false, ih cs hlen', List.countP_cons]

theorem maskFilter_replicate_true : ∀ (cs : List Cell) (n : Nat), cs.length = n →
    maskFilter (List.replicate n true) cs = cs := by
  intro cs
  induction cs with
  | nil => intro n _; exact maskFilter_nil_cells _
  | cons x cs ih =>
    intro n hlen
    match n, hlen with
    | n + 1, hlen =>
      rw [List.replicate_succ, maskFilter_cons_true, ih n (by simpa using hlen)]

/-- Two columns filtered by the or-mask built from themselves: every
surviving pair has a non-null member. -/
theorem maskFilter_or_pair : ∀ (xs ys : List Cell) (i : Nat) (a b : Cell),
    (maskFilter (List.zipWith orMask xs ys) xs).get? i = some a →
    (maskFilter (List.zipWith orMask xs ys) ys).get? i = some b →
    a ≠ Cell.null ∨ b ≠ Cell.null := by
  intro xs
  induction xs with
  | nil => intro ys i a b ha _; simp [maskFilter] at ha
  | cons x xs ih =>
    intro ys i a b ha hb
    match ys with
    | [] => simp [maskFilter] at hb
    | y :: ys =>
      rw [List.zipWith_cons_cons] at ha hb
      by_cases hor : orMask x y = true
      · rw [hor, maskFilter_cons_true] at ha hb
        cases i with
        | zero =>
          simp only [List.get?_cons_zero, Option.some.injEq] at ha hb
          subst ha; subst hb
          have hor2 : cellNull x = false ∨ cellNull y = false := by
            simpa [orMask] using hor
          rcases hor2 with h | h
          · exact Or.inl ((cellNull_false_iff x).mp h)
          · exact Or.inr ((cellNull_false_iff y).mp h)
        | succ i =>
          simp only [List.get?_cons_succ] at ha hb
          exact ih ys i a b ha hb
      · rw [Bool.not_eq_true] at hor
        rw [hor, maskFilter_cons_false] at ha hb
        exact ih ys i a b ha hb

/-- Three columns (cash, futures, derived basis) filtered by the or-mask of
cash and derived basis: every surviving basis cell is the difference of the
surviving cash and futures cells at the same position. -/
theorem maskFilter_sub_triple : ∀ (xs zs : List Cell) (i : Nat) (a c b : Cell),
    (maskFilter (List.zipWith orMask xs (List.zipWith cellSub xs zs)) xs).get? i = some a →
    (maskFilter (List.zipWith orMask xs (List.zipWith cellSub xs zs)) zs).get? i = some c →
    (maskFilter (List.zipWith orMask xs (List.zipWith cellSub xs zs))
      (List.zipWith cellSub xs zs)).get? i = some b →
    b = cellSub a c := by
  intro xs
  induction xs with
  | nil => intro zs i a c b ha _ _; simp [maskFilter] at ha
  | cons x xs ih =>
    intro zs i a c b ha hc hb
    match zs with
    | [] => simp [maskFilter] at hc
    | z :: zs =>
      rw [List.zipWith_cons_cons, List.zipWith_cons_cons] at ha hc hb
      by_cases hor : orMask x (cellSub x z) = true
      · rw [hor, maskFilter_cons_true] at ha hc hb
        cases i with
        | zero =>
          simp only [List.get?_cons_zero, Option.some.injEq] at ha hc hb
          rw [← ha, ← hc, ← hb]
        | succ i =>
          simp only [List.get?_cons_succ] at ha hc hb
          exact ih zs i a c b ha hc hb
      · rw [Bool.not_eq_true] at hor
        rw [hor, maskFilter_cons_false] at ha hc hb
        exact ih zs i a c b ha hc hb

/-! ## Frame access lemmas -/

theorem names_applyMask (m : List Bool) (f : Frame) : names (applyMaskF m f) = names f := by
  simp [names, applyMaskF]

theorem names_append (f g : Frame) : names (f ++ g) = names f ++ names g := by
  simp [names]

theorem mem_names_iff (f : Frame) (n : String) :
    n ∈ names f ↔ ∃ c ∈ f, c.1 = n := by
  simp [names]

theorem find?_eq_none_of_not_mem {f : Frame} {n : String} (h : n ∉ names f) :
    f.find? (fun c => c.1 = n) = none := by
  rw [List.find?_eq_none]
  intro c hc
  simp only [decide_eq_true_eq]
  intro he
  exact h ((mem_names_iff f n).mpr ⟨c, hc, he⟩)

theorem getCellsD_applyMask (m : List Bool) (f : Frame) (n : String) :
    getCellsD (applyMaskF m f) n = maskFilter m (getCellsD f n) := by
  rw [getCellsD, getCellsD, applyMaskF, List.find?_map]
  have : ((fun c : String × List Cell => decide (c.1 = n)) ∘
      fun c : String × List Cell => (c.1, maskFilter m c.2)) =
      fun c : String × List Cell => decide (c.1 = n) := rfl
  rw [this]
  cases f.find? (fun c => c.1 = n) <;> simp [maskFilter_nil_cells]

theorem getCellsD_append_left {f : Frame} {n : String} (g : Frame) (h : n ∈ names f) :
    getCellsD (f ++ g) n = getCellsD f n := by
  rw [getCellsD, getCellsD, List.find?_append]
  obtain ⟨c, hc, he⟩ := (mem_names_iff f n).mp h
  have : f.find? (fun c => c.1 = n) ≠ none := by
    intro hnone
    rw [List.find?_eq_none] at hnone
    exact absurd (by simpa using he) (by simpa using hnone c hc)
  cases hf : f.find? (fun c => c.1 = n) with
  | none => exact absurd hf this
  | some c' => rfl

theorem getCellsD_append_new {f : Frame} {n : String} (cs : List Cell) (h : n ∉ names f) :
    getCellsD (f ++ [(n, cs)]) n = cs := by
  rw [getCellsD, List.find?_append, find?_eq_none_of_not_mem h]
  simp [List.find?]

theorem cellAt_eq_getCellsD (f : Frame) (n : String) (i : Nat) :
    cellAt f n i = (getCellsD f n).get? i := by
  rw [cellAt, getCellsD]
  cases f.find? (fun c => c.1 = n) <;> simp

theorem relabel_names_self : ∀ f : Frame, relabel f (names f) = f := by
  intro f
  induction f with
  | nil => rfl
  | cons c f ih =>
    show (c.1, c.2) :: relabel f (names f) = c :: f
    rw [ih]

theorem names_relabel (f : Frame) (ns : List String) (h : ns.length = f.length) :
    names (relabel f ns) = ns := by
  rw [relabel, names]
  rw [List.map_fst_zip]
  rw [List.length_map]
  omega

/-! ## Idempotence of `_strip_empty` on rectangular frames -/

theorem keepRowMask_length (f : Frame) : (keepRowMask f).length = nrows f := by
  simp [keepRowMask]

theorem stripEmpty_row_not_null {f : Frame} (hw : WF f) :
    ∀ i, i < nrows (stripEmpty f) → rowAllNull (stripEmpty f) i = false := by
  intro i hi
  match hs : stripEmpty f with
  | [] => rw [hs] at hi; simp [nrows] at hi
  | c₀ :: rest =>
    rw [hs] at hi
    have hc₀s : c₀ ∈ stripEmpty f := by rw [hs]; exact List.mem_cons_self _ _
    have hc₀g : c₀ ∈ dropNullRows f := List.mem_of_mem_filter hc₀s
    obtain ⟨c, hcf, hceq⟩ := List.mem_map.mp hc₀g
    have hlen : i < c₀.2.length := hi
    obtain ⟨a, ha⟩ : ∃ a, c₀.2.get? i = some a := by
      rw [List.get?_eq_get hlen]; exact ⟨_, rfl⟩
    have hclen : c.2.length = (keepRowMask f).length := by
      rw [hw c hcf, keepRowMask_length]
    have hget : c₀.2.get? i = (posOf (keepRowMask f) i).bind (fun j => c.2.get? j) := by
      have h2 : c₀.2 = maskFilter (keepRowMask f) c.2 := by rw [← hceq]
      rw [h2]
      exact maskFilter_get? _ _ hclen i
    rw [ha] at hget
    obtain ⟨j, hj⟩ : ∃ j, posOf (keepRowMask f) i = some j := by
      cases hp : posOf (keepRowMask f) i with
      | none => rw [hp] at hget; simp at hget
      | some j => exact ⟨j, rfl⟩
    rw [hj] at hget
    have hcja : c.2.get? j = some a := by simpa using hget.symm
    have hmj : (keepRowMask f).get? j = some true := posOf_true _ _ _ hj
    -- the mask is true at j exactly when row j of f is not entirely null
    have hjlt : j < nrows f := by
      have hjlen : j < (keepRowMask f).length := by
        obtain ⟨h, _⟩ := List.get?_eq_some.mp hmj
        exact h
      rwa [keepRowMask_length] at hjlen
    have hrowj : rowAllNull f j = false := by
      have : (keepRowMask f).get? j = some (!rowAllNull f j) := by
        rw [keepRowMask, List.get?_map, List.get?_range hjlt]
        rfl
      rw [this] at hmj
      have := Option.some.inj hmj
      cases h : rowAllNull f j
      · rfl
      · rw [h] at this; simp at this
    -- extract a witness column of f that is non-null at row j
    obtain ⟨cc, hccf, hccnn⟩ := List.all_eq_false.mp hrowj
    have hccnn' : cellNull ((cc.2.get? j).getD Cell.null) = false := by
      cases h : cellNull ((cc.2.get? j).getD Cell.null)
      · rfl
      · exact absurd h hccnn
    obtain ⟨aa, haa⟩ : ∃ aa, cc.2.get? j = some aa := by
      cases h : cc.2.get? j with
      | none => rw [h] at hccnn'; simp [cellNull] at hccnn'
      | some aa => exact ⟨aa, rfl⟩
    have haann : cellNull aa = false := by
      rw [haa] at hccnn'; simpa using hccnn'
    -- the witness column survives both strips and is non-null at row i
    have hcclen : cc.2.length = (keepRowMask f).length := by
      rw [hw cc hccf, keepRowMask_length]
    have hccmem : (cc.1, maskFilter (keepRowMask f) cc.2) ∈ dropNullRows f :=
      List.mem_map.mpr ⟨cc, hccf, rfl⟩
    have hsurv : (cc.1, maskFilter (keepRowMask f) cc.2) ∈ stripEmpty f := by
      show _ ∈ dropNullCols (dropNullRows f)
      rw [dropNullCols]
      apply List.mem_filter.mpr
      refine ⟨hccmem, ?_⟩
      apply List.any_eq_true.mpr
      refine ⟨aa, maskFilter_mem _ _ j aa hmj haa, by simp [haann]⟩
    have hcci : (maskFilter (keepRowMask f) cc.2).get? i = some aa := by
      rw [maskFilter_get? _ _ hcclen i, hj]
      simpa using haa
    -- hence row i of the stripped frame is not entirely null
    rw [hs] at hsurv
    rw [Bool.eq_false_iff]
    intro hall
    have := List.all_eq_true.mp hall _ hsurv
    rw [hcci] at this
    simp only [Option.getD_some] at this
    rw [haann] at this
    exact Bool.false_ne_true this

theorem keepRowMask_replicate {s : Frame}
    (h : ∀ i, i < nrows s → rowAllNull s i = false) :
    keepRowMask s = List.replicate (nrows s) true := by
  rw [keepRowMask]
  apply List.eq_replicate_iff.mpr
  constructor
  · simp
  · intro b hb
    obtain ⟨i, hi, hbi⟩ := List.mem_map.mp hb
    rw [← hbi, h i (List.mem_range.mp hi)]
    rfl

theorem dropNullRows_eq_self {s : Frame} (hw : WF s)
    (hm : keepRowMask s = List.replicate (nrows s) true) : dropNullRows s = s := by
  rw [dropNullRows, hm, applyMaskF]
  have hcg : ∀ c ∈ s, ((fun c : String × List Cell =>
      (c.1, maskFilter (List.replicate (nrows s) true) c.2)) c) = id c := by
    intro c hc
    simp only [id]
    rw [maskFilter_replicate_true c.2 (nrows s) (hw c hc)]
  rw [List.map_congr_left hcg, List.map_id]

theorem WF_stripEmpty {f : Frame} (hw : WF f) : WF (stripEmpty f) := by
  have hall : ∀ c' ∈ dropNullRows f, c'.2.length = (keepRowMask f).countP id := by
    intro c' hc'
    obtain ⟨c0, hc0, hceq⟩ := List.mem_map.mp hc'
    rw [← hceq]
    exact maskFilter_length _ _ (by rw [hw c0 hc0, keepRowMask_length])
  intro c hc
  have hcs : c ∈ dropNullRows f := List.mem_of_mem_filter hc
  rw [hall c hcs]
  match hs : stripEmpty f with
  | [] => rw [hs] at hc; simp at hc
  | c₀ :: rest =>
    have hc₀ : c₀ ∈ dropNullRows f := by
      have hmem : c₀ ∈ stripEmpty f := by rw [hs]; exact List.mem_cons_self _ _
      exact List.mem_of_mem_filter hmem
    show (keepRowMask f).countP id = c₀.2.length
    rw [hall c₀ hc₀]

theorem stripEmpty_idem {f : Frame} (hw : WF f) : stripEmpty (stripEmpty f) = stripEmpty f := by
  have hw_s := WF_stripEmpty hw
  have h1 : dropNullRows (stripEmpty f) = stripEmpty f :=
    dropNullRows_eq_self hw_s (keepRowMask_replicate (stripEmpty_row_not_null hw))
  show dropNullCols (dropNullRows (stripEmpty f)) = stripEmpty f
  rw [h1]
  apply List.filter_eq_self.mpr
  intro c hc
  exact (List.mem_filter.mp hc).2

/-! ## Selector-loop lemmas -/

/-- The greatest normalized row count over a candidate list. -/
def maxScore (loc : String) (now : Int) (ts : List Frame) : Nat :=
  (ts.map (scoreOf loc now)).foldr max 0

theorem maxScore_cons (loc : String) (now : Int) (t : Frame) (ts : List Frame) :
    maxScore loc now (t :: ts) = max (scoreOf loc now t) (maxScore loc now ts) := rfl

theorem le_maxScore_of_mem {loc : String} {now : Int} :
    ∀ {ts : List Frame} {u : Frame}, u ∈ ts → scoreOf loc now u ≤ maxScore loc now ts := by
  intro ts
  induction ts with
  | nil => intro u hu; simp at hu
  | cons t ts ih =>
    intro u hu
    rw [maxScore_cons]
    rcases List.mem_cons.mp hu with rfl | hu
    · exact le_max_left _ _
    · exact le_trans (ih hu) (le_max_right _ _)

theorem bestLoop_stay (loc : String) (now : Int) :
    ∀ (ts : List Frame) (b : Option Frame) (r : Nat),
      (∀ t ∈ ts, scoreOf loc now t ≤ r) → bestLoop loc now ts b r = (b, r) := by
  intro ts
  induction ts with
  | nil => intro b r _; rfl
  | cons t ts ih =>
    intro b r hle
    have ht := hle t (List.mem_cons_self t ts)
    cases hn : normalizeSmartE t loc now with
    | ok g =>
      simp only [scoreOf, hn] at ht
      simp only [bestLoop, hn, if_neg (by omega : ¬r < nrows g)]
      exact ih b r (fun u hu => hle u (List.mem_cons_of_mem t hu))
    | error e =>
      simp only [bestLoop, hn]
      exact ih b r (fun u hu => hle u (List.mem_cons_of_mem t hu))

theorem bestLoop_first_max (loc : String) (now : Int) :
    ∀ (ts : List Frame) (b : Option Frame) (r : Nat), r < maxScore loc now ts →
      ∃ pre t post g, ts = pre ++ t :: post ∧
        (∀ u ∈ pre, scoreOf loc now u < maxScore loc now ts) ∧
        normalizeSmartE t loc now = .ok g ∧
        nrows g = maxScore loc now ts ∧
        bestLoop loc now ts b r = (some g, maxScore loc now ts) := by
  intro ts
  induction ts with
  | nil => intro b r hr; simp [maxScore] at hr
  | cons t ts ih =>
    intro b r hr
    rw [maxScore_cons] at hr
    by_cases hM : maxScore loc now ts ≤ scoreOf loc now t
    · -- the head attains the maximum
      have hst : r < scoreOf loc now t := by omega
      cases hn : normalizeSmartE t loc now with
      | error e => simp only [scoreOf, hn] at hst; omega
      | ok g =>
        simp only [scoreOf, hn] at hst hM
        refine ⟨[], t, ts, g, rfl, by simp, hn, ?_, ?_⟩
        · rw [maxScore_cons]
          simp only [scoreOf, hn]
          omega
        · simp only [bestLoop, hn, if_pos hst]
          have hstay := bestLoop_stay loc now ts (some g) (nrows g)
            (fun u hu => le_trans (le_maxScore_of_mem hu) hM)
          rw [hstay, maxScore_cons]
          simp only [scoreOf, hn]
          congr 1
          omega
    · -- the maximum sits in the tail
      push_neg at hM
      have hcons : maxScore loc now (t :: ts) = maxScore loc now ts := by
        rw [maxScore_cons]
        omega
      cases hn : normalizeSmartE t loc now with
      | error e =>
        obtain ⟨pre, u, post, g, hsplit, hpre, hng, hmax, hloop⟩ := ih b r (by omega)
        refine ⟨t :: pre, u, post, g, by rw [hsplit]; rfl, ?_, hng, by rw [hcons]; exact hmax, ?_⟩
        · intro v hv
          rcases List.mem_cons.mp hv with rfl | hv
          · rw [hcons]; exact hM
          · rw [hcons]; exact hpre v hv
        · simp only [bestLoop, hn]
          rw [hcons]
          exact hloop
      | ok g0 =>
        have hM0 : nrows g0 < maxScore loc now ts := by
          have := hM
          simp only [scoreOf, hn] at this
          exact this
        by_cases hup : r < nrows g0
        · obtain ⟨pre, u, post, g, hsplit, hpre, hng, hmax, hloop⟩ :=
            ih (some g0) (nrows g0) (by omega)
          refine ⟨t :: pre, u, post, g, by rw [hsplit]; rfl, ?_, hng,
            by rw [hcons]; exact hmax, ?_⟩
          · intro v hv
            rcases List.mem_cons.mp hv with rfl | hv
            · rw [hcons]; exact hM
            · rw [hcons]; exact hpre v hv
          · simp only [bestLoop, hn, if_pos hup]
            rw [hcons]
            exact hloop
        · obtain ⟨pre, u, post, g, hsplit, hpre, hng, hmax, hloop⟩ := ih b r (by omega)
          refine ⟨t :: pre, u, post, g, by rw [hsplit]; rfl, ?_, hng,
            by rw [hcons]; exact hmax, ?_⟩
          · intro v hv
            rcases List.mem_cons.mp hv with rfl | hv
            · rw [hcons]; exact hM
            · rw [hcons]; exact hpre v hv
          · simp only [bestLoop, hn, if_neg hup]
            rw [hcons]
            exact hloop

/-! ## Stable-descending-sort head lemma -/

theorem sortDesc_append_one (l : List (String × Nat)) (x : String × Nat) :
    sortDesc (l ++ [x]) = insertDesc x (sortDesc l) := by
  rw [sortDesc, sortDesc, List.foldl_append]
  rfl

theorem sortDesc_first_max :
    ∀ l : List (String × Nat), l ≠ [] →
      ∃ pre b post, l = pre ++ b :: post ∧ (sortDesc l).head? = some b ∧
        (∀ y ∈ pre, y.2 < b.2) ∧ (∀ y ∈ post, y.2 ≤ b.2) := by
  intro l
  induction l using List.reverseRecOn with
  | nil => intro h; exact absurd rfl h
  | append_singleton l x ih =>
    intro _
    by_cases hnil : l = []
    · subst hnil
      exact ⟨[], x, [], rfl, rfl, by simp, by simp⟩
    · obtain ⟨pre, b, post, heq, hhead, hpre, hpost⟩ := ih hnil
      rw [sortDesc_append_one]
      by_cases hgt : b.2 < x.2
      · refine ⟨l, x, [], by simp, ?_, ?_, by simp⟩
        · cases hsd : sortDesc l with
          | nil => rw [hsd] at hhead; simp at hhead
          | cons y ys =>
            rw [hsd] at hhead
            have hyb : y = b := by simpa using hhead
            subst hyb
            rw [insertDesc, if_pos hgt]
            rfl
        · intro v hv
          rw [heq] at hv
          rcases List.mem_append.mp hv with hv | hv
          · exact lt_trans (hpre v hv) hgt
          · rcases List.mem_cons.mp hv with rfl | hv
            · exact hgt
            · exact lt_of_le_of_lt (hpost v hv) hgt
      · refine ⟨pre, b, post ++ [x], by rw [heq]; simp, ?_, hpre, ?_⟩
        · cases hsd : sortDesc l with
          | nil => rw [hsd] at hhead; simp at hhead
          | cons y ys =>
            rw [hsd] at hhead
            have hyb : y = b := by simpa using hhead
            subst hyb
            rw [insertDesc, if_neg hgt]
            rfl
        · intro v hv
          rcases List.mem_append.mp hv with hv | hv
          · exact hpost v hv
          · rcases List.mem_cons.mp hv with rfl | hv
            · omega
            · simp at hv

/-! ## Deduplication lemmas (resilient_patch discovery) -/

theorem dedupAux_fresh : ∀ (l : List Frame) (seen : List (List String × Nat × Nat)),
    ∀ g ∈ dedupAux l seen, sigOf g ∉ seen := by
  intro l
  induction l with
  | nil => intro seen g hg; simp [dedupAux] at hg
  | cons f fs ih =>
    intro seen g hg
    rw [dedupAux] at hg
    by_cases hf : sigOf f ∈ seen
    · rw [if_pos hf] at hg
      exact ih seen g hg
    · rw [if_neg hf] at hg
      rcases List.mem_cons.mp hg with rfl | hg
      · exact hf
      · have := ih (sigOf f :: seen) g hg
        intro hmem
        exact this (List.mem_cons_of_mem _ hmem)

theorem dedupAux_sig_nodup : ∀ (l : List Frame) (seen : List (List String × Nat × Nat)),
    ((dedupAux l seen).map sigOf).Nodup := by
  intro l
  induction l with
  | nil => intro seen; simp [dedupAux]
  | cons f fs ih =>
    intro seen
    rw [dedupAux]
    by_cases hf : sigOf f ∈ seen
    · rw [if_pos hf]; exact ih seen
    · rw [if_neg hf]
      rw [List.map_cons, List.nodup_cons]
      refine ⟨?_, ih (sigOf f :: seen)⟩
      intro hmem
      obtain ⟨g, hg, hsig⟩ := List.mem_map.mp hmem
      have := dedupAux_fresh fs (sigOf f :: seen) g hg
      rw [hsig] at this
      exact this (List.mem_cons_self _ _)

theorem dedupAux_sublist : ∀ (l : List Frame) (seen : List (List String × Nat × Nat)),
    (dedupAux l seen).Sublist l := by
  intro l
  induction l with
  | nil => intro seen; simp [dedupAux]
  | cons f fs ih =>
    intro seen
    rw [dedupAux]
    by_cases hf : sigOf f ∈ seen
    · rw [if_pos hf]; exact (ih seen).cons f
    · rw [if_neg hf]; exact (ih (sigOf f :: seen)).cons₂ f

theorem dedupAux_cover : ∀ (l : List Frame) (seen : List (List String × Nat × Nat)),
    ∀ f ∈ l, sigOf f ∈ seen ∨ ∃ g ∈ dedupAux l seen, sigOf g = sigOf f := by
  intro l
  induction l with
  | nil => intro seen f hf; simp at hf
  | cons f0 fs ih =>
    intro seen f hf
    rw [dedupAux]
    by_cases h0 : sigOf f0 ∈ seen
    · rw [if_pos h0]
      rcases List.mem_cons.mp hf with rfl | hf
      · exact Or.inl h0
      · exact ih seen f hf
    · rw [if_neg h0]
      rcases List.mem_cons.mp hf with rfl | hf
      · exact Or.inr ⟨f, List.mem_cons_self _ _, rfl⟩
      · rcases ih (sigOf f0 :: seen) f hf with hmem | ⟨g, hg, hsig⟩
        · rcases List.mem_cons.mp hmem with he | hmem
          · exact Or.inr ⟨f0, List.mem_cons_self _ _, he.symm⟩
          · exact Or.inl hmem
        · exact Or.inr ⟨g, List.mem_cons_of_mem _ hg, hsig⟩

/-! ## Remaining access lemmas used by the claim theorems -/

theorem getCellsD_length_of_mem {f : Frame} (hw : WF f) {n : String} (h : n ∈ names f) :
    (getCellsD f n).length = nrows f := by
  rw [getCellsD]
  cases hf : f.find? (fun c => c.1 = n) with
  | none =>
    obtain ⟨c, hc, he⟩ := (mem_names_iff f n).mp h
    rw [List.find?_eq_none] at hf
    exact absurd (by simpa using he) (by simpa using hf c hc)
  | some c => exact hw c (List.mem_of_find?_eq_some hf)

theorem zipWith_get? (op : Cell → Cell → Cell) :
    ∀ (xs zs : List Cell) (j : Nat) (a c : Cell), xs.get? j = some a → zs.get? j = some c →
      (List.zipWith op xs zs).get? j = some (op a c) := by
  intro xs
  induction xs with
  | nil => intro zs j a c ha _; simp at ha
  | cons x xs ih =>
    intro zs j a c ha hc
    match zs with
    | [] => simp at hc
    | z :: zs =>
      cases j with
      | zero =>
        simp only [List.get?_cons_zero, Option.some.injEq] at ha hc
        subst ha; subst hc
        rfl
      | succ j =>
        simp only [List.get?_cons_succ] at ha hc
        rw [List.zipWith_cons_cons]
        simpa using ih zs j a c ha hc

theorem nrows_relabel (t : Frame) (ns : List String) (h : ns.length = t.length) :
    nrows (relabel t ns) = nrows t := by
  cases t with
  | nil =>
    cases ns with
    | nil => rfl
    | cons n ns => simp at h
  | cons c t =>
    cases ns with
    | nil => simp at h
    | cons n ns => rfl

theorem WF_relabel {t : Frame} (hw : WF t) (ns : List String) (h : ns.length = t.length) :
    WF (relabel t ns) := by
  intro c hc
  rw [nrows_relabel t ns h]
  obtain ⟨-, h2⟩ := List.mem_zip hc
  obtain ⟨c0, hc0, he⟩ := List.mem_map.mp h2
  rw [← he]
  exact hw c0 hc0

theorem names_length (f : Frame) : (names f).length = f.length := by simp [names]

theorem bestLoop_append (loc : String) (now : Int) :
    ∀ (l1 l2 : List Frame) (b : Option Frame) (r : Nat),
      bestLoop loc now (l1 ++ l2) b r =
        bestLoop loc now l2 (bestLoop loc now l1 b r).1 (bestLoop loc now l1 b r).2 := by
  intro l1
  induction l1 with
  | nil => intro l2 b r; rfl
  | cons t l1 ih =>
    intro l2 b r
    show bestLoop loc now (t :: (l1 ++ l2)) b r = _
    cases hn : normalizeSmartE t loc now with
    | ok g =>
      by_cases hup : r < nrows g
      · simp only [bestLoop, hn, if_pos hup]
        exact ih l2 (some g) (nrows g)
      · simp only [bestLoop, hn, if_neg hup]
        exact ih l2 b r
    | error e =>
      simp only [bestLoop, hn]
      exact ih l2 b r

theorem fallbackCands_threshold {f : Frame} {y : String × Nat} (hy : y ∈ fallbackCands f) :
    max 1 (nrows f / 3) ≤ y.2 := by
  obtain ⟨c, hc, he⟩ := List.mem_filterMap.mp hy
  by_cases h1 : 2 ≤ countName f c.1
  · simp [if_pos h1] at he
  · simp only [if_neg h1] at he
    simp at he
    obtain ⟨⟨ha, hb⟩, hyy⟩ := he
    rw [← hyy]
    exact max_le ha hb

/-! # Claim C2 — header uniqueness invariant of the Table Repairer -/

/-- C2, counterexample: for the header list `["a", "a", "a_2"]` — whose last
label already carries a generated `_k` suffix — `_make_unique` emits
`["a", "a_2", "a_2"]`, so two columns share a label after repair.  The claim
as stated (for every input, including labels already ending in `_k`) is
therefore false. -/
theorem C2_counterexample : ¬(makeUnique ["a", "a", "a_2"]).Nodup := by decide

/-- C2, amended: after repair no two columns share a label, provided no
input label is itself of the generated form `ℓ_k` for another input label
`ℓ` and a counter `k ≥ 2` (k at most the column count); repeated labels are
renamed name, name_2, name_3, … as claimed. -/
theorem C2_header_uniqueness (cols : List String) (H : noSfxCollision cols) :
    (makeUnique cols).Nodup := by
  rw [makeUnique_eq_muSpec]
  exact muSpec_nodup cols H cols [] rfl

/-- Witness for C2 at the header list `["Bid", "Bid", "Bid"]`. -/
theorem C2_witness :
    noSfxCollision ["Bid", "Bid", "Bid"] ∧ (makeUnique ["Bid", "Bid", "Bid"]).Nodup :=
  ⟨by decide, C2_header_uniqueness ["Bid", "Bid", "Bid"] (by decide)⟩

/-! # Claim C4 — idempotence of the Table Repairer -/

/-- C4, counterexample: repairing the table with columns a, a, a_2 once
yields labels a, a_2, a_2; repairing twice yields a, a_2, a_2_2, so repair
is not idempotent as claimed. -/
theorem C4_counterexample :
    repairF (repairF [("a", [Cell.str "x"]), ("a", [Cell.str "y"]), ("a_2", [Cell.str "z"])]) ≠
      repairF [("a", [Cell.str "x"]), ("a", [Cell.str "y"]), ("a_2", [Cell.str "z"])] := by
  decide

/-- C4, amended: on a rectangular table, applying the Table Repairer twice
yields the same result as applying it once provided one application yields
pairwise-distinct labels (which holds whenever no label has the generated
`ℓ_k` form; the labels of an already-unique single-level header are kept
verbatim, by `makeUnique_of_nodup`). -/
theorem C4_repair_idem (t : Frame) (hw : WF t) (hn : (names (repairF t)).Nodup) :
    repairF (repairF t) = repairF t := by
  have hwf : WF (flattenColumns t) :=
    WF_relabel hw _ (by rw [makeUnique_length, names_length])
  have hflat : flattenColumns (repairF t) = repairF t := by
    rw [flattenColumns, makeUnique_of_nodup hn, relabel_names_self]
  show stripEmpty (flattenColumns (repairF t)) = repairF t
  rw [hflat]
  exact stripEmpty_idem hwf

/-- Witness for C4 at a one-column table. -/
theorem C4_witness :
    WF [("Bid", [Cell.str "4.50"])] ∧
      (names (repairF [("Bid", [Cell.str "4.50"])])).Nodup ∧
      repairF (repairF [("Bid", [Cell.str "4.50"])]) = repairF [("Bid", [Cell.str "4.50"])] :=
  ⟨by decide, by decide, C4_repair_idem [("Bid", [Cell.str "4.50"])] (by decide) (by decide)⟩

/-! # Claim C5 — price nullability of numeric coercion -/

/-- C5: the claim correctly describes resilient_patch's coercion (strip all
characters outside [0-9.+-], parse, null on failure, never a crash): "N/A"
and the em dash coerce to null, currency and thousands separators are
stripped.  But resilient_fetch's version of the very same cleanup raises
`re.error` (its doubled-backslash character class `[^0-9.\\-+]` contains the
reversed range backslash-to-plus), so on that code path coercion crashes
the whole candidate instead of producing nulls: the code contradicts the
claimed (and patch-implemented) behaviour. -/
theorem C5_coercion :
    normalizeSmartE [("Cash", [Cell.str "N/A"])] "Loc" 0 =
        .error "re.error: bad character range" ∧
      cleanCell (.str "N/A") = .null ∧
      cleanCell (.str "—") = .null ∧
      cleanCell (.str "$4.50") = .num (mkRat 9 2) ∧
      cleanCell (.str "1,234.50") = .num (mkRat 2469 2) ∧
      cleanCell .null = .null ∧
      toNumericCell (.str "abc") = .null := by
  refine ⟨?_, ?_, ?_, ?_, ?_, ?_, ?_⟩ <;> decide

/-! # Claim C9 — discovery deduplication by structural signature -/

/-- C9, counterexample: resilient_fetch's `read_tables_any` performs no
deduplication; when two parsing strategies extract the same table, the
discovery output carries two tables with an identical structural
signature. -/
theorem C9_counterexample :
    ¬((readTablesAnyFetch [[[("a", [Cell.str "x"])]], [[("a", [Cell.str "x"])]]]).map
      sigOf).Nodup := by decide

/-- C9, amended: the deduplication the claim describes is the one of
resilient_patch's `read_tables_any`: its output contains no two tables with
an identical signature, is a subsequence of the concatenated strategy
outputs (first-seen occurrences are the ones kept), and covers every
discovered signature. -/
theorem C9_dedup (lxmlT html5T soupT : List Frame) :
    ((readTablesAnyPatch lxmlT html5T soupT).map sigOf).Nodup ∧
      (readTablesAnyPatch lxmlT html5T soupT).Sublist (lxmlT ++ html5T ++ soupT) ∧
      ∀ f ∈ lxmlT ++ html5T ++ soupT,
        ∃ g ∈ readTablesAnyPatch lxmlT html5T soupT, sigOf g = sigOf f := by
  refine ⟨dedupAux_sig_nodup _ _, dedupAux_sublist _ _, ?_⟩
  intro f hf
  rcases dedupAux_cover (lxmlT ++ html5T ++ soupT) [] f hf with hmem | h
  · simp at hmem
  · exact h

/-- Witness for C9 with the same table extracted by two strategies. -/
theorem C9_witness :
    ((readTablesAnyPatch [[("a", [Cell.str "x"])]] [[("a", [Cell.str "x"])]] []).map
        sigOf).Nodup ∧
      (readTablesAnyPatch [[("a", [Cell.str "x"])]] [[("a", [Cell.str "x"])]] []).Sublist
        ([[("a", [Cell.str "x"])]] ++ [[("a", [Cell.str "x"])]] ++ []) ∧
      ∀ f ∈ [[("a", [Cell.str "x"])]] ++ [[("a", [Cell.str "x"])]] ++ ([] : List Frame),
        ∃ g ∈ readTablesAnyPatch [[("a", [Cell.str "x"])]] [[("a", [Cell.str "x"])]] [],
          sigOf g = sigOf f :=
  C9_dedup [[("a", [Cell.str "x"])]] [[("a", [Cell.str "x"])]] []

/-! ## Epoch-column access lemmas -/

theorem names_addEpoch (h1 : Frame) (now : Int) :
    names (addEpoch h1 now) = names h1 ++ ["last_refresh_epoch"] := by
  rw [addEpoch, names_append]
  rfl

theorem getCellsD_addEpoch {h1 : Frame} (now : Int) {n : String} (hn : n ∈ names h1) :
    getCellsD (addEpoch h1 now) n = getCellsD h1 n :=
  getCellsD_append_left _ hn

theorem mem_names_addEpoch_of_ne {h1 : Frame} {now : Int} {n : String}
    (hne : n ≠ "last_refresh_epoch") (h : n ∈ names (addEpoch h1 now)) : n ∈ names h1 := by
  rw [names_addEpoch] at h
  rcases List.mem_append.mp h with h | h
  · exact h
  · simp only [List.mem_singleton] at h
    exact absurd h hne

/-! # Claim C3 — row retention invariant -/

/-- C3, counterexample: a table in which neither a cash nor a basis column
resolves (here: a text column and a bare numeric column that the patch
fallback keeps under its own label) is returned with all its rows retained
and no cash/basis fields at all — such rows are not discarded, contrary to
the claim. -/
theorem C3_counterexample :
    normalizePatchE [("Notes", [Cell.str "a"]), ("Qty", [Cell.num 5])] "Loc" 7 =
      .ok [("Qty", [Cell.num 5]), ("location", [Cell.str "Loc"]),
        ("last_refresh_epoch", [Cell.num (mkRat 7 1)])] ∧
      "cash" ∉ names [("Qty", [Cell.num 5]), ("location", [Cell.str "Loc"]),
        ("last_refresh_epoch", [Cell.num (mkRat 7 1)])] ∧
      "basis" ∉ names [("Qty", [Cell.num 5]), ("location", [Cell.str "Loc"]),
        ("last_refresh_epoch", [Cell.num (mkRat 7 1)])] := by
  refine ⟨?_, ?_, ?_⟩ <;> decide

/-- C3, amended: every output row of a table for which both a cash and a
basis column were resolved has a non-null cash or a non-null basis; tables
where neither column resolved keep their rows (with both fields absent),
and tables where exactly one resolved raise instead (C10). -/
theorem C3_row_retention (f : Frame) (loc : String) (now : Int) (g : Frame)
    (hok : normalizePatchE f loc now = .ok g)
    (hc : "cash" ∈ names g) (hb : "basis" ∈ names g) :
    ∀ i a b, cellAt g "cash" i = some a → cellAt g "basis" i = some b →
      a ≠ Cell.null ∨ b ≠ Cell.null := by
  intro i a b hca hcb
  cases hpre : patchPreBasis f loc with
  | error e =>
    simp only [normalizePatchE, hpre] at hok
    exact Except.noConfusion hok
  | ok h =>
    cases hrf : rowFilterStage (basisDerive h) with
    | error e =>
      simp only [normalizePatchE, hpre, hrf] at hok
      exact Except.noConfusion hok
    | ok h1 =>
      simp only [normalizePatchE, hpre, hrf] at hok
      have hg : g = addEpoch h1 now := (Except.ok.inj hok).symm
      subst hg
      have hcn : "cash" ∈ names h1 :=
        mem_names_addEpoch_of_ne (by decide) hc
      have hbn : "basis" ∈ names h1 :=
        mem_names_addEpoch_of_ne (by decide) hb
      rw [cellAt_eq_getCellsD, getCellsD_addEpoch now hcn] at hca
      rw [cellAt_eq_getCellsD, getCellsD_addEpoch now hbn] at hcb
      -- analyse the row filter
      rw [rowFilterStage] at hrf
      by_cases hc4 : "cash" ∈ names (basisDerive h)
      · rw [if_pos hc4] at hrf
        by_cases hb4 : "basis" ∈ names (basisDerive h)
        · rw [if_pos hb4] at hrf
          have hh1 : h1 = applyMaskF
              (List.zipWith orMask (getCellsD (basisDerive h) "cash")
                (getCellsD (basisDerive h) "basis")) (basisDerive h) :=
            (Except.ok.inj hrf).symm
          rw [hh1, getCellsD_applyMask] at hca hcb
          exact maskFilter_or_pair _ _ i a b hca hcb
        · rw [if_neg hb4] at hrf
          exact Except.noConfusion hrf
      · rw [if_neg hc4] at hrf
        by_cases hb4 : "basis" ∈ names (basisDerive h)
        · rw [if_pos hb4] at hrf
          exact Except.noConfusion hrf
        · rw [if_neg hb4] at hrf
          have hh1 : basisDerive h = h1 := Except.ok.inj hrf
          rw [← hh1] at hcn
          exact absurd hcn hc4

/-- Witness for C3 at a Corn table with cash, futures and derived basis. -/
theorem C3_witness :
    normalizePatchE [("Commodity", [Cell.str "Corn"]), ("Cash Price", [Cell.str "4.48"]),
        ("CBOT", [Cell.str "4.60"])] "L" 5 =
      .ok [("commodity", [Cell.str "Corn"]), ("cash", [Cell.num (mkRat 448 100)]),
        ("futures", [Cell.num (mkRat 460 100)]), ("location", [Cell.str "L"]),
        ("basis", [Cell.num (-(mkRat 12 100))]),
        ("last_refresh_epoch", [Cell.num (mkRat 5 1)])] ∧
      (Cell.num (mkRat 448 100) ≠ Cell.null ∨ Cell.num (-(mkRat 12 100)) ≠ Cell.null) := by
  refine ⟨by decide, ?_⟩
  exact C3_row_retention [("Commodity", [Cell.str "Corn"]), ("Cash Price", [Cell.str "4.48"]),
    ("CBOT", [Cell.str "4.60"])] "L" 5
    [("commodity", [Cell.str "Corn"]), ("cash", [Cell.num (mkRat 448 100)]),
      ("futures", [Cell.num (mkRat 460 100)]), ("location", [Cell.str "L"]),
      ("basis", [Cell.num (-(mkRat 12 100))]),
      ("last_refresh_epoch", [Cell.num (mkRat 5 1)])]
    (by decide) (by decide) (by decide) 0 (Cell.num (mkRat 448 100))
    (Cell.num (-(mkRat 12 100))) (by decide) (by decide)

/-! # Claim C6 — basis derivation -/

/-- C6: when the (patch) normalizer reaches basis derivation with no basis
column but cash and futures resolved, every output row's basis is exactly
cash minus futures (prices are exact rationals in the model; the claim's
4.48/4.60/−0.12 instance is the witness below).  In resilient_fetch the
same derivation line is unreachable: a resolved futures column already
raises `re.error` in the cleanup (C5). -/
theorem C6_basis_derivation (f : Frame) (loc : String) (now : Int) (h : Frame)
    (hw : WF h) (hpre : patchPreBasis f loc = .ok h)
    (hnb : "basis" ∉ names h) (hc : "cash" ∈ names h) (hf : "futures" ∈ names h) :
    ∃ g, normalizePatchE f loc now = .ok g ∧
      ∀ i qa qb, cellAt g "cash" i = some (.num qa) →
        cellAt g "futures" i = some (.num qb) →
        cellAt g "basis" i = some (.num (qa - qb)) := by
  have hguard : "basis" ∉ names h ∧ "cash" ∈ names h ∧ "futures" ∈ names h := ⟨hnb, hc, hf⟩
  have hbd : basisDerive h = h ++
      [("basis", List.zipWith cellSub (getCellsD h "cash") (getCellsD h "futures"))] := by
    rw [basisDerive, if_pos hguard]
  have hxlen : (getCellsD h "cash").length = nrows h := getCellsD_length_of_mem hw hc
  have hzlen : (getCellsD h "futures").length = nrows h := getCellsD_length_of_mem hw hf
  have hylen : (List.zipWith cellSub (getCellsD h "cash") (getCellsD h "futures")).length =
      nrows h := by
    rw [List.length_zipWith]
    omega
  have hnbd : names (basisDerive h) = names h ++ ["basis"] := by
    rw [hbd, names_append]
    rfl
  have hcb : "cash" ∈ names (basisDerive h) := by
    rw [hnbd]; exact List.mem_append_left _ hc
  have hfb : "futures" ∈ names (basisDerive h) := by
    rw [hnbd]; exact List.mem_append_left _ hf
  have hbb : "basis" ∈ names (basisDerive h) := by
    rw [hnbd]; simp
  have hgc : getCellsD (basisDerive h) "cash" = getCellsD h "cash" := by
    rw [hbd]; exact getCellsD_append_left _ hc
  have hgz : getCellsD (basisDerive h) "futures" = getCellsD h "futures" := by
    rw [hbd]; exact getCellsD_append_left _ hf
  have hgb : getCellsD (basisDerive h) "basis" =
      List.zipWith cellSub (getCellsD h "cash") (getCellsD h "futures") := by
    rw [hbd]; exact getCellsD_append_new _ hnb
  set M := List.zipWith orMask (getCellsD h "cash")
      (List.zipWith cellSub (getCellsD h "cash") (getCellsD h "futures")) with hM
  have hmasklen : M.length = nrows h := by
    rw [hM, List.length_zipWith]
    omega
  have hrf : rowFilterStage (basisDerive h) = .ok (applyMaskF M (basisDerive h)) := by
    rw [rowFilterStage, if_pos hcb, if_pos hbb, hgc, hgb]
  refine ⟨addEpoch (applyMaskF M (basisDerive h)) now, ?_, ?_⟩
  · simp only [normalizePatchE, hpre, hrf]
  · intro i qa qb hqa hqb
    have hcn1 : "cash" ∈ names (applyMaskF M (basisDerive h)) := by
      rw [names_applyMask]; exact hcb
    have hfn1 : "futures" ∈ names (applyMaskF M (basisDerive h)) := by
      rw [names_applyMask]; exact hfb
    have hbn1 : "basis" ∈ names (applyMaskF M (basisDerive h)) := by
      rw [names_applyMask]; exact hbb
    rw [cellAt_eq_getCellsD, getCellsD_addEpoch now hcn1, getCellsD_applyMask, hgc,
      maskFilter_get? M _ (by omega) i] at hqa
    rw [cellAt_eq_getCellsD, getCellsD_addEpoch now hfn1, getCellsD_applyMask, hgz,
      maskFilter_get? M _ (by omega) i] at hqb
    rw [cellAt_eq_getCellsD, getCellsD_addEpoch now hbn1, getCellsD_applyMask, hgb,
      maskFilter_get? M _ (by omega) i]
    obtain ⟨j, hj⟩ : ∃ j, posOf M i = some j := by
      cases hp : posOf M i with
      | none => rw [hp] at hqa; simp at hqa
      | some j => exact ⟨j, rfl⟩
    rw [hj] at hqa hqb ⊢
    simp only [Option.some_bind] at hqa hqb ⊢
    rw [zipWith_get? cellSub _ _ j _ _ hqa hqb]
    show some (Cell.num (ratSub qa qb)) = _
    rw [ratSub_eq]

/-- Witness for C6: cash 4.48 and futures 4.60 with no basis column yield
basis exactly −0.12. -/
theorem C6_witness :
    ∃ g, normalizePatchE [("Commodity", [Cell.str "Corn"]), ("Cash Price", [Cell.str "4.48"]),
        ("CBOT", [Cell.str "4.60"])] "L" 5 = .ok g ∧
      cellAt g "basis" 0 = some (.num (mkRat 448 100 - mkRat 460 100)) := by
  obtain ⟨g, hok, hprop⟩ := C6_basis_derivation
    [("Commodity", [Cell.str "Corn"]), ("Cash Price", [Cell.str "4.48"]),
      ("CBOT", [Cell.str "4.60"])] "L" 5
    [("commodity", [Cell.str "Corn"]), ("cash", [Cell.num (mkRat 448 100)]),
      ("futures", [Cell.num (mkRat 460 100)]), ("location", [Cell.str "L"])]
    (by decide) (by decide) (by decide) (by decide) (by decide)
  refine ⟨g, hok, ?_⟩
  have hG : normalizePatchE [("Commodity", [Cell.str "Corn"]),
      ("Cash Price", [Cell.str "4.48"]), ("CBOT", [Cell.str "4.60"])] "L" 5 =
      .ok [("commodity", [Cell.str "Corn"]), ("cash", [Cell.num (mkRat 448 100)]),
        ("futures", [Cell.num (mkRat 460 100)]), ("location", [Cell.str "L"]),
        ("basis", [Cell.num (-(mkRat 12 100))]),
        ("last_refresh_epoch", [Cell.num (mkRat 5 1)])] := by decide
  rw [hok] at hG
  have hg : g = [("commodity", [Cell.str "Corn"]), ("cash", [Cell.num (mkRat 448 100)]),
      ("futures", [Cell.num (mkRat 460 100)]), ("location", [Cell.str "L"]),
      ("basis", [Cell.num (-(mkRat 12 100))]),
      ("last_refresh_epoch", [Cell.num (mkRat 5 1)])] := Except.ok.inj hG
  subst hg
  exact hprop 0 (mkRat 448 100) (mkRat 460 100) (by decide) (by decide)

/-! # Claim C10 — the implicit row-filter fault and its per-candidate capture -/

/-- A four-row test table: one text column and one column with a single
numeric value, enough for the cash fallback to fire. -/
def tblFour : Frame :=
  [("Notes", [Cell.str "a", Cell.str "b", Cell.str "c", Cell.str "x"]),
   ("Val", [Cell.str "7", Cell.str "x", Cell.str "y", Cell.str "z"])]

/-- The state of `tblFour` at the cash-fallback point of
normalize_bid_table_smart. -/
def tblFourPre : Frame :=
  [("Notes", [Cell.str "a", Cell.str "b", Cell.str "c", Cell.str "x"]),
   ("Val", [Cell.str "7", Cell.str "x", Cell.str "y", Cell.str "z"]),
   ("delivery", [Cell.str "Nearby", Cell.str "Nearby", Cell.str "Nearby", Cell.str "Nearby"])]

/-- The state of `tblFour` at the row-filter point: the fallback renamed
`Val` to `cash`, and no basis column exists. -/
def tblFourRow : Frame :=
  [("Notes", [Cell.str "a", Cell.str "b", Cell.str "c", Cell.str "x"]),
   ("cash", [Cell.str "7", Cell.str "x", Cell.str "y", Cell.str "z"]),
   ("delivery", [Cell.str "Nearby", Cell.str "Nearby", Cell.str "Nearby", Cell.str "Nearby"]),
   ("location", [Cell.str "L", Cell.str "L", Cell.str "L", Cell.str "L"])]

/-- C10: whenever exactly one of the cash/basis columns exists at the
row-filter point, the fetch normalizer raises (`df.get` returns None for
the missing column and `.notna()` raises AttributeError), and the
surrounding selection loop of fetch_coop_table skips the candidate without
affecting the processing of the other candidates. -/
theorem C10_single_price_column (f : Frame) (loc : String) (now : Int) (h : Frame)
    (hpre : fetchPreRow f loc = .ok h)
    (hx : ("cash" ∈ names h) ↔ ("basis" ∉ names h)) :
    (∃ e, normalizeSmartE f loc now = .error e) ∧
      ∀ (pre post : List Frame) (b : Option Frame) (r : Nat),
        bestLoop loc now (pre ++ f :: post) b r = bestLoop loc now (pre ++ post) b r := by
  have herr : ∃ e, rowFilterStage h = .error e := by
    by_cases hc : "cash" ∈ names h
    · have hb : "basis" ∉ names h := hx.mp hc
      exact ⟨_, by rw [rowFilterStage, if_pos hc, if_neg hb]⟩
    · have hb : "basis" ∈ names h := by
        by_contra hb
        exact hc (hx.mpr hb)
      exact ⟨_, by rw [rowFilterStage, if_neg hc, if_pos hb]⟩
  obtain ⟨e, he⟩ := herr
  have hnorm : normalizeSmartE f loc now = .error e := by
    simp only [normalizeSmartE, hpre, he]
  refine ⟨⟨e, hnorm⟩, ?_⟩
  intro pre post b r
  rw [bestLoop_append, bestLoop_append]
  simp only [bestLoop, hnorm]

/-- Witness for C10: a table whose fallback-resolved cash column is the only
price column present at the row filter. -/
theorem C10_witness :
    fetchPreRow tblFour "L" = .ok tblFourRow ∧
      (("cash" ∈ names tblFourRow) ↔ ("basis" ∉ names tblFourRow)) ∧
      bestLoop "L" 0 [tblFour] none 0 = (none, 0) := by
  refine ⟨by decide, by decide, ?_⟩
  have h := (C10_single_price_column tblFour "L" 0 tblFourRow (by decide) (by decide)).2
    [] [] none 0
  simpa using h

/-! # Claim C7 — cash fallback selection -/

/-- C7, counterexample: in `tblFour` (four rows) the candidate column has a
single numeric value — below the claimed one-third fraction (3·1 < 4) — yet
the code still resolves it as cash, because its threshold is
`max(1, len(df)//3)` = 1, not ⌈len/3⌉; the claim's "otherwise cash stays
unresolved" is violated. -/
theorem C7_counterexample :
    fetchPreFallback tblFour = .ok tblFourPre ∧
      "cash" ∉ names tblFourPre ∧
      3 * numCount (getCellsD tblFourPre "Val") < nrows tblFourPre ∧
      "cash" ∈ names (cashFallbackStage tblFourPre) := by
  refine ⟨?_, ?_, ?_, ?_⟩ <;> decide

/-- C7, amended: when no cash column resolved, the fallback considers every
column at that point (also already-mapped ones such as delivery; a
duplicated label contributes no candidate since its per-column probe
raises), requires at least `max(1, ⌊rows/3⌋)` coerced numeric values —
not one-third — and renames the candidate with the highest numeric count
(first seen on ties) to cash; with no candidate the frame is unchanged. -/
theorem C7_cash_fallback (f : Frame) (hnc : "cash" ∉ names f) :
    (fallbackCands f = [] → cashFallbackStage f = f) ∧
      (fallbackCands f ≠ [] →
        ∃ pre b post, fallbackCands f = pre ++ b :: post ∧
          (∀ y ∈ pre, y.2 < b.2) ∧ (∀ y ∈ post, y.2 ≤ b.2) ∧
          max 1 (nrows f / 3) ≤ b.2 ∧
          cashFallbackStage f = f.map (fun c => if c.1 = b.1 then ("cash", c.2) else c)) := by
  constructor
  · intro hnil
    rw [cashFallbackStage, if_neg hnc, hnil]
    rfl
  · intro hne
    obtain ⟨pre, b, post, hsplit, hhead, hpre, hpost⟩ := sortDesc_first_max _ hne
    refine ⟨pre, b, post, hsplit, hpre, hpost, ?_, ?_⟩
    · exact fallbackCands_threshold
        (by rw [hsplit]; exact List.mem_append_right _ (List.mem_cons_self _ _))
    · rw [cashFallbackStage, if_neg hnc, hhead]

/-- Witness for C7 at a one-row table with a single numeric column. -/
theorem C7_witness :
    (fallbackCands [("Notes", [Cell.str "a"]), ("Val", [Cell.str "7"])] = [] →
        cashFallbackStage [("Notes", [Cell.str "a"]), ("Val", [Cell.str "7"])] =
          [("Notes", [Cell.str "a"]), ("Val", [Cell.str "7"])]) ∧
      (fallbackCands [("Notes", [Cell.str "a"]), ("Val", [Cell.str "7"])] ≠ [] →
        ∃ pre b post,
          fallbackCands [("Notes", [Cell.str "a"]), ("Val", [Cell.str "7"])] =
            pre ++ b :: post ∧
          (∀ y ∈ pre, y.2 < b.2) ∧ (∀ y ∈ post, y.2 ≤ b.2) ∧
          max 1 (nrows [("Notes", [Cell.str "a"]), ("Val", [Cell.str "7"])] / 3) ≤ b.2 ∧
          cashFallbackStage [("Notes", [Cell.str "a"]), ("Val", [Cell.str "7"])] =
            [("Notes", [Cell.str "a"]), ("Val", [Cell.str "7"])].map
              (fun c => if c.1 = b.1 then ("cash", c.2) else c)) :=
  C7_cash_fallback [("Notes", [Cell.str "a"]), ("Val", [Cell.str "7"])] (by decide)

/-! # Claim C1 — best-candidate selection -/

/-- C1: over any candidate list in which at least one table normalizes
successfully to at least one (retained) row, the selection loop of
fetch_coop_table returns the normalized result of the first candidate
attaining the greatest normalized row count (strict improvement ⇒
first-seen wins ties), failures of other candidates are recorded in the
per-candidate telemetry without aborting the batch, and the source result
is the success record carrying that best frame. -/
theorem C1_best_candidate (tables : List Frame) (loc : String) (now : Int)
    (h : ∃ t ∈ tables, 1 ≤ scoreOf loc now t) :
    ∃ pre t post g, tables = pre ++ t :: post ∧
      normalizeSmartE t loc now = .ok g ∧
      nrows g = maxScore loc now tables ∧
      (∀ u ∈ pre, scoreOf loc now u < nrows g) ∧
      fetchParsePhase tables loc now =
        ⟨true, some g, none, none, none, none, metaLoop loc now 0 tables⟩ := by
  obtain ⟨t0, ht0, hs0⟩ := h
  have hM : 0 < maxScore loc now tables :=
    lt_of_lt_of_le (by omega) (le_maxScore_of_mem ht0)
  obtain ⟨pre, t, post, g, hsplit, hpre, hok, hng, hloop⟩ :=
    bestLoop_first_max loc now tables none 0 hM
  refine ⟨pre, t, post, g, hsplit, hok, hng, ?_, ?_⟩
  · intro u hu
    rw [hng]
    exact hpre u hu
  · simp only [fetchParsePhase, hloop]
    rw [if_neg (by omega : ¬nrows g = 0)]

/-- Witness for C1: a candidate that fails normalization (scored 0) followed
by a candidate normalizing to 3 rows; the 3-row result is returned. -/
theorem C1_witness :
    ∃ pre t post g,
      [[("Cash", [Cell.str "4.50"])],
        [("Notes", [Cell.str "a", Cell.str "b", Cell.str "c"])]] = pre ++ t :: post ∧
      normalizeSmartE t "L" 0 = .ok g ∧
      nrows g = maxScore "L" 0 [[("Cash", [Cell.str "4.50"])],
        [("Notes", [Cell.str "a", Cell.str "b", Cell.str "c"])]] ∧
      (∀ u ∈ pre, scoreOf "L" 0 u < nrows g) ∧
      fetchParsePhase [[("Cash", [Cell.str "4.50"])],
          [("Notes", [Cell.str "a", Cell.str "b", Cell.str "c"])]] "L" 0 =
        ⟨true, some g, none, none, none, none,
          metaLoop "L" 0 0 [[("Cash", [Cell.str "4.50"])],
            [("Notes", [Cell.str "a", Cell.str "b", Cell.str "c"])]]⟩ :=
  C1_best_candidate [[("Cash", [Cell.str "4.50"])],
    [("Notes", [Cell.str "a", Cell.str "b", Cell.str "c"])]] "L" 0
    ⟨[("Notes", [Cell.str "a", Cell.str "b", Cell.str "c"])], by decide, by decide⟩

/-! # Claim C8 — typed-failure propagation of the per-source entry point -/

/-- C8, counterexample: a candidate whose normalization raises (the
`re.error` of C5) does not produce a ParseError result as claimed — the
failure is recorded per-candidate and the source is reported
`normalized_empty`. -/
theorem C8_counterexample :
    (fetchCoopFetch (.ok ⟨200, "<table></table>"⟩)
        (fun _ => .ok [[("Cash", [Cell.str "4.50"])]]) "L" 0).error =
      some "normalized_empty" ∧
      normalizeSmartE [("Cash", [Cell.str "4.50"])] "L" 0 =
        .error "re.error: bad character range" := by
  refine ⟨?_, ?_⟩ <;> decide

theorem fetchParsePhase_perTable (ts : List Frame) (loc : String) (now : Int) :
    (fetchParsePhase ts loc now).perTable = metaLoop loc now 0 ts := by
  rcases hbl : bestLoop loc now ts none 0 with ⟨b, r⟩
  rw [fetchParsePhase, hbl]
  cases b with
  | none => rfl
  | some g =>
    by_cases h : nrows g = 0
    · simp [h]
    · simp [h]

/-- C8, amended: the entry point is total over its oracles and maps each
failure to its typed result: transport failure to `http_error` with the
underlying message (the HTTP oracle is consulted once — no retry), a
discovery-stage fault to `parse_error`, an empty discovery to
`no_tables_found` with status code, raw length and table-markup flag, and a
non-empty discovery to the selection phase, whose per-candidate telemetry
records each candidate's normalization outcome (an individual
normalization failure surfaces as `normalized_empty` when no candidate
survives, not as `parse_error`). -/
theorem C8_propagation (http : Except String Page)
    (discover : Page → Except String (List Frame)) (loc : String) (now : Int) :
    (∀ e, http = .error e →
      fetchCoopFetch http discover loc now =
        ⟨false, none, some ("http_error: " ++ e), none, none, none, []⟩) ∧
      (∀ pg e, http = .ok pg → discover pg = .error e →
        fetchCoopFetch http discover loc now =
          ⟨false, none, some ("parse_error: " ++ e), none, none, none, []⟩) ∧
      (∀ pg, http = .ok pg → discover pg = .ok [] →
        fetchCoopFetch http discover loc now =
          ⟨false, none, some "no_tables_found", some pg.status, some pg.text.length,
            some (tableTagIn pg.text), []⟩) ∧
      (∀ pg ts, http = .ok pg → discover pg = .ok ts → ts ≠ [] →
        fetchCoopFetch http discover loc now = fetchParsePhase ts loc now ∧
        (fetchParsePhase ts loc now).perTable = metaLoop loc now 0 ts) := by
  refine ⟨?_, ?_, ?_, ?_⟩
  · intro e he
    subst he
    rfl
  · intro pg e hh hd
    subst hh
    simp only [fetchCoopFetch, hd]
  · intro pg hh hd
    subst hh
    simp only [fetchCoopFetch, hd]
    rfl
  · intro pg ts hh hd hne
    subst hh
    refine ⟨?_, fetchParsePhase_perTable ts loc now⟩
    simp only [fetchCoopFetch, hd]
    rw [if_neg (fun hE => hne (List.isEmpty_iff.mp hE))]

/-- Witness for C8 at a failing HTTP oracle. -/
theorem C8_witness :
    fetchCoopFetch (.error "timeout") (fun _ => .ok []) "L" 0 =
      ⟨false, none, some ("http_error: " ++ "timeout"), none, none, none, []⟩ :=
  (C8_propagation (.error "timeout") (fun _ => .ok []) "L" 0).1 "timeout" rfl

end Grain
